import Mathlib

/-!
Shallow embedding of the libnaomi thread scheduler / syscall dispatcher
(src/homebrew/libnaomi/thread.c) and of the netbootmenu message codec
(src/homebrew/netbootmenu/message.c), together with proofs about the
specification claims.

Modelling conventions:
* C pointers to thread descriptors are modelled by the slot index of the
  descriptor in the fixed table (each slot holds a separately allocated
  object in C, so pointer equality coincides with slot-index equality).
* `irq_state_t *` context pointers are modelled as `Nat` identifiers
  (0 plays the role of the null pointer produced by `memset`).
* Machine integers are modelled as `Nat` / `Int` with explicit `% 2^32`
  (thread counter, counters) and `% 2^16` (message sequence) where the C
  code can overflow.  C `int` values (priorities) are modelled as `Int`,
  with `INT_MIN = -2^31`.
* The fixed-capacity tables (`MAX_THREADS`, `MAX_GLOBAL_COUNTERS`,
  `MAX_OUTSTANDING_PACKETS` are compile-time tunables whose values are not
  part of the excerpted source) are modelled as lists of `Option` slots of
  arbitrary length; the list length is the table capacity.
-/

namespace Naomi

/-- Thread states, from the THREAD_STATE_* constants of thread.c. -/
inductive TState
  | stopped
  | running
  | finished
  | zombie
  | waiting
deriving DecidableEq

/-- Thread descriptor (`thread_t`).  Fields not used by the excerpted
operations (waiting_semaphore, waiting_thread, main_thread, stack, retval)
are omitted; `context` is the saved-context identifier (0 = null). -/
structure Thread where
  name : String
  id : Nat
  priority : Int
  state : TState
  context : Nat
deriving DecidableEq

/-- The fixed-capacity thread table `threads[MAX_THREADS]`; a `none` slot is
a null entry. -/
abbrev ThreadTable := List (Option Thread)

/-- THREAD_SCHEDULE_CURRENT / _OTHER / _ANY. -/
inductive Req
  | current
  | other
  | any
deriving DecidableEq

/-- Value of `INT_MIN` on the SH-4 (32-bit int). -/
def INT_MIN : Int := -(2 ^ 31)

/-- Slot lookup used by theorem statements: the option stored at slot `j`
(`none` both for an empty slot and for an out-of-range index). -/
def slotAt (tbl : ThreadTable) (j : Nat) : Option Thread :=
  tbl.getD j none

/-- Worker for `_thread_find_by_context`: scans slots in order starting at
index `i`, returning the slot index and descriptor of the first thread whose
context equals `ctx`. -/
def findCtxAux (ctx : Nat) : List (Option Thread) → Nat → Option (Nat × Thread)
  | [], _ => none
  | none :: rest, i => findCtxAux ctx rest (i + 1)
  | some t :: rest, i =>
    if t.context = ctx then some (i, t) else findCtxAux ctx rest (i + 1)

/-- Embedding of `_thread_find_by_context`: the C function returns a pointer
to the first descriptor whose `context` field equals the argument; we return
its slot index together with the descriptor. -/
def _thread_find_by_context (tbl : ThreadTable) (ctx : Nat) : Option (Nat × Thread) :=
  findCtxAux ctx tbl 0

/-- Embedding of `_thread_find_by_id` (first descriptor with the given id). -/
def _thread_find_by_id : ThreadTable → Nat → Option Thread
  | [], _ => none
  | none :: rest, i => _thread_find_by_id rest i
  | some t :: rest, i => if t.id = i then some t else _thread_find_by_id rest i

/-- First loop of `_thread_schedule`: compute the maximum priority over the
schedulable (Running) threads, skipping the current thread when the request
is OTHER; the accumulator starts at `INT_MIN` (the idle thread's priority). -/
def sched_priority (req : Req) (ci : Nat) : List (Option Thread) → Nat → Int → Int
  | [], _, acc => acc
  | none :: rest, i, acc => sched_priority req ci rest (i + 1) acc
  | some t :: rest, i, acc =>
    if req = Req.other ∧ i = ci then sched_priority req ci rest (i + 1) acc
    else if t.state ≠ TState.running then sched_priority req ci rest (i + 1) acc
    else sched_priority req ci rest (i + 1) (max acc t.priority)

/-- Second loop of `_thread_schedule`: round robin inside the priority band.
Note that, exactly as in the C code, membership in the band is decided by
priority alone (the thread's state is not examined here).  `f` is the
`found` flag. -/
def rr_next (P : Int) (ci : Nat) : List (Option Thread) → Nat → Bool → Option Nat
  | [], _, _ => none
  | none :: rest, i, f => rr_next P ci rest (i + 1) f
  | some t :: rest, i, f =>
    if t.priority ≠ P then rr_next P ci rest (i + 1) f
    else if f then some t.context
    else if i = ci then rr_next P ci rest (i + 1) true
    else rr_next P ci rest (i + 1) f

/-- Third loop of `_thread_schedule`: wrap around and return the first
thread in the priority band (again: priority alone decides membership). -/
def first_band (P : Int) : List (Option Thread) → Option Nat
  | [] => none
  | none :: rest => first_band P rest
  | some t :: rest => if t.priority = P then some t.context else first_band P rest

/-- Embedding of `_thread_schedule`. -/
def _thread_schedule (tbl : ThreadTable) (state : Nat) (req : Req) : Nat :=
  match _thread_find_by_context tbl state with
  | none => state
  | some (ci, cur) =>
    if req = Req.current ∧ cur.state = TState.running then cur.context
    else
      let P := sched_priority req ci tbl 0 INT_MIN
      match rr_next P ci tbl 0 false with
      | some c => c
      | none =>
        match first_band P tbl with
        | some c => c
        | none => state

/-- Global counter cell: `addr` is the malloc'd address used as identity in
`global_counters[]`, `value` the 32-bit cell contents. -/
structure GCounter where
  addr : Nat
  value : Nat
deriving DecidableEq

/-- The fixed-capacity table `global_counters[MAX_GLOBAL_COUNTERS]`. -/
abbrev CounterTable := List (Option GCounter)

/-- Embedding of `_global_counter_find`: the C function returns the stored
pointer (whose cell we then read or write); we return the cell value of the
first slot whose address matches. -/
def _global_counter_find : CounterTable → Nat → Option Nat
  | [], _ => none
  | none :: rest, a => _global_counter_find rest a
  | some c :: rest, a =>
    if c.addr = a then some c.value else _global_counter_find rest a

/-- Mutation through the pointer returned by `_global_counter_find`: apply
`f` to the value of the first slot whose address matches. -/
def update_counter : CounterTable → Nat → (Nat → Nat) → CounterTable
  | [], _, _ => []
  | none :: rest, a, f => none :: update_counter rest a f
  | some c :: rest, a, f =>
    if c.addr = a then some ⟨c.addr, f c.value⟩ :: rest
    else some c :: update_counter rest a f

/-- Mutation through the pointer returned by `_thread_find_by_id`: apply `f`
to the first descriptor whose id matches. -/
def update_by_id : ThreadTable → Nat → (Thread → Thread) → ThreadTable
  | [], _, _ => []
  | none :: rest, a, f => none :: update_by_id rest a f
  | some t :: rest, a, f =>
    if t.id = a then some (f t) :: rest
    else some t :: update_by_id rest a f

/-- Reinterpretation of a `uint32_t` register value as a C `int`
(assignment `thread->priority = current->gp_regs[5]`). -/
def asInt32 (n : Nat) : Int :=
  if n % 2 ^ 32 < 2 ^ 31 then (n % 2 ^ 32 : Int) else (n % 2 ^ 32 : Int) - 2 ^ 32

/-- The shared kernel state mutated by the syscall dispatcher. -/
structure KState where
  threads : ThreadTable
  counters : CounterTable
deriving DecidableEq

/-- State-and-request effect of the `switch (which)` body of
`_syscall_trapa`: given the current context id and the two argument register
values `a0 = gp_regs[4]`, `a1 = gp_regs[5]`, return the new kernel state,
the value written to the return register `gp_regs[0]` (if any) and the
scheduling request passed to `_thread_schedule`. -/
def trapa_effect (st : KState) (cur : Nat) (which a0 a1 : Nat) :
    KState × Option Nat × Req :=
  match which with
  | 0 =>
    (⟨st.threads,
      match _global_counter_find st.counters a0 with
      | some _ => update_counter st.counters a0 (fun v => (v + 1) % 2 ^ 32)
      | none => st.counters⟩, none, Req.current)
  | 1 =>
    (⟨st.threads,
      match _global_counter_find st.counters a0 with
      | some v =>
        if 0 < v then update_counter st.counters a0 (fun w => w - 1)
        else st.counters
      | none => st.counters⟩, none, Req.current)
  | 2 =>
    (st,
      some (match _global_counter_find st.counters a0 with
            | some v => v
            | none => 0), Req.current)
  | 3 => (st, none, Req.other)
  | 4 =>
    (⟨update_by_id st.threads a0
        (fun t => if t.state = TState.stopped then { t with state := TState.running } else t),
      st.counters⟩, none, Req.any)
  | 5 =>
    (⟨update_by_id st.threads a0
        (fun t => if t.state = TState.running then { t with state := TState.stopped } else t),
      st.counters⟩, none, Req.any)
  | 6 =>
    (⟨update_by_id st.threads a0 (fun t => { t with priority := asInt32 a1 }),
      st.counters⟩, none, Req.any)
  | 7 =>
    (st,
      some (match _thread_find_by_context st.threads cur with
            | some (_, t) => t.id
            | none => 0), Req.current)
  | _ => (st, none, Req.current)

/-- Embedding of `_syscall_trapa`: perform the effect, then invoke the
scheduler with the indicated request; the last component is the context id
returned to the trap handler. -/
def _syscall_trapa (st : KState) (cur : Nat) (which a0 a1 : Nat) :
    KState × Option Nat × Nat :=
  let r := trapa_effect st cur which a0 a1
  (r.1, r.2.1, _thread_schedule r.1.threads cur r.2.2)

/-- Scan a fixed table for the first empty slot and fill it with `x`
(`none` when the table is full).  This is the slot-allocation pattern of
`_thread_create` and `global_counter_init`. -/
def insertFirst {α : Type} (x : α) : List (Option α) → Option (List (Option α))
  | [] => none
  | none :: rest => some (some x :: rest)
  | some y :: rest => (insertFirst x rest).map (fun r => some y :: r)

/-- Embedding of `_thread_create`: allocate a descriptor in the first empty
slot, in state Stopped, with id `thread_counter++` (32-bit) and the given
priority; the name is truncated to 63 characters by `strncpy`.  Returns the
updated table, the updated `thread_counter` and the new descriptor (`none`
when the table is full — the C function then returns a null pointer and
leaves the table unchanged). -/
def _thread_create (tbl : ThreadTable) (counter : Nat) (name : String) (prio : Int) :
    ThreadTable × Nat × Option Thread :=
  let nt : Thread := ⟨name.take 63, counter, prio, TState.stopped, 0⟩
  match insertFirst nt tbl with
  | some tbl2 => (tbl2, (counter + 1) % 2 ^ 32, some nt)
  | none => (tbl, counter, none)

/-- Embedding of the public `thread_create`: `_thread_create(name, 0)`, then
the new descriptor's stack and context are filled in (`newCtx` stands for
the fresh context produced by the external `_irq_new_state`) and the new id
is returned.  When `_thread_create` returns null the C code dereferences the
null thread pointer (`thread->stack = ...`, `return thread->id`); that
undefined behaviour is modelled by returning `none` instead of an id. -/
def thread_create (tbl : ThreadTable) (counter : Nat) (name : String) (newCtx : Nat) :
    ThreadTable × Nat × Option Nat :=
  match _thread_create tbl counter name 0 with
  | (tbl2, c2, some nt) =>
    (update_by_id tbl2 nt.id (fun t => { t with context := newCtx }), c2, some nt.id)
  | (tbl2, c2, none) => (tbl2, c2, none)

/-- Embedding of `_thread_init`: reset the table to `nThreads` empty slots
and `thread_counter` to 1, then create the idle thread with priority
`INT_MIN`, give it its context (`idleCtx` stands for the context produced by
the external `_irq_new_state`) and set it Running. -/
def _thread_init (idleCtx : Nat) (nThreads : Nat) : ThreadTable × Nat :=
  let tbl0 : ThreadTable := List.replicate nThreads none
  match _thread_create tbl0 1 "idle" INT_MIN with
  | (tbl2, c2, some nt) =>
    (update_by_id tbl2 nt.id
      (fun t => { t with context := idleCtx, state := TState.running }), c2)
  | (tbl2, c2, none) => (tbl2, c2)

/-- Embedding of `global_counter_init`: store `v` in a freshly allocated
cell (`addr` stands for the malloc'd address), record the pointer in the
first empty slot and return it; when the table is full the C function
returns the null pointer (`none`) and leaves the table unchanged. -/
def global_counter_init (tbl : CounterTable) (addr : Nat) (v : Nat) :
    CounterTable × Option Nat :=
  match insertFirst (⟨addr, v % 2 ^ 32⟩ : GCounter) tbl with
  | some tbl2 => (tbl2, some addr)
  | none => (tbl, none)

/-!
Message codec (src/homebrew/netbootmenu/message.c).

A wire packet is a list of byte values.  `MAX_PACKET_LENGTH` comes from the
external packet.h; we parametrise every definition by
`D = MAX_MESSAGE_DATA_LENGTH = MAX_PACKET_LENGTH - MESSAGE_HEADER_LENGTH`.
The packet transport is an external collaborator (packetlib_send /
packetlib_peek / packetlib_discard); the sender takes the transport as a
result function on packets, the receiver takes the current peek window as a
list of optional packets (a `none` slot is an empty / discarded slot).
-/

/-- Little-endian encoding of a 16-bit value (`memcpy` of a `uint16_t`). -/
def encLE16 (v : Nat) : List Nat := [v % 256, v / 256 % 256]

/-- Little-endian decoding of a 16-bit value from two bytes. -/
def decLE16 (lo hi : Nat) : Nat := lo % 256 + hi % 256 * 256

/-- The 8-byte message header: type, sequence, total length, offset. -/
def mkHeader (ty sq len loc : Nat) : List Nat :=
  encLE16 ty ++ encLE16 sq ++ encLE16 len ++ encLE16 loc

/-- Decoded type field of a packet (bytes 0..1). -/
def pktType (p : List Nat) : Nat := decLE16 (p.getD 0 0) (p.getD 1 0)

/-- Decoded sequence field of a packet (bytes 2..3). -/
def pktSeq (p : List Nat) : Nat := decLE16 (p.getD 2 0) (p.getD 3 0)

/-- Decoded total-length field of a packet (bytes 4..5). -/
def pktLen (p : List Nat) : Nat := decLE16 (p.getD 4 0) (p.getD 5 0)

/-- Decoded offset field of a packet (bytes 6..7). -/
def pktLoc (p : List Nat) : Nat := decLE16 (p.getD 6 0) (p.getD 7 0)

/-- Sequence counter step at the end of a successful `message_send`:
`sequence++` on a `uint16_t`, then skip 0. -/
def next_sequence (s : Nat) : Nat :=
  if (s + 1) % 65536 = 0 then 1 else (s + 1) % 65536

/-- The fragment loop of `message_send`.  At offset `loc` the remaining
payload is `rest = data.drop loc`; one fragment of `min (len - loc) D`
payload bytes is built and handed to the transport `t`, and the loop
continues while `loc + D < len`.  The `fuel` argument makes the recursion
structural; `message_send` supplies enough fuel for every `D > 0` (for
`D = 0` the C loop does not terminate, which surfaces here as `none`). -/
def send_loop (t : List Nat → Int) (D ty sq len : Nat) :
    Nat → Nat → List Nat → Option (List (List Nat) × Int)
  | 0, _, _ => none
  | fuel + 1, loc, rest =>
    let pkt := mkHeader ty sq len loc ++ rest.take D
    if t pkt = 0 then
      if loc + D < len then
        match send_loop t D ty sq len fuel (loc + D) (rest.drop D) with
        | some (ps, c) => some (pkt :: ps, c)
        | none => none
      else some ([pkt], 0)
    else some ([], -4)

/-- Result of `message_send`: packets accepted by the transport, return
code, and the value of the static `sequence` counter after the call. -/
structure SendOut where
  sent : List (List Nat)
  code : Int
  seq : Nat
deriving DecidableEq

/-- Embedding of `message_send`.  `sq` is the value of the static `sequence`
counter on entry; lengths above 0xFFFF are rejected with -3 before anything
is sent; a transport failure aborts with -4; the sequence counter is bumped
(skipping 0) only after every fragment has been emitted. -/
def message_send (t : List Nat → Int) (D sq ty : Nat) (data : List Nat) :
    Option SendOut :=
  if data.length > 65535 then some ⟨[], -3, sq⟩
  else
    match send_loop t D ty sq data.length (data.length + 1) 0 data with
    | some (ps, c) =>
      if c = 0 then some ⟨ps, 0, next_sequence sq⟩ else some ⟨ps, c, sq⟩
    | none => none

/-- The transport of a loopback test: every packet is accepted. -/
def okTransport : List Nat → Int := fun _ => 0

/-- Number of fragments of a message of `len` payload bytes:
`ceil (len / D)`, except that a zero-length message still uses one
fragment. -/
def numFragments (D len : Nat) : Nat :=
  if len = 0 then 1 else (len + (D - 1)) / D

/-- The `i`-th fragment of a message: header at offset `i * D` followed by
up to `D` payload bytes from that offset. -/
def fragAt (D ty sq : Nat) (data : List Nat) (i : Nat) : List Nat :=
  mkHeader ty sq data.length (i * D) ++ (data.drop (i * D)).take D

/-- The full fragment list of a message. -/
def fragList (D ty sq : Nat) (data : List Nat) : List (List Nat) :=
  (List.range (numFragments D data.length)).map (fragAt D ty sq data)

/-- Per-sequence reassembly record of `message_recv`: the arrays
`seen_packet_sequences` / `seen_packet_lengths` / `seen_positions` hold, for
each tracked sequence, the sequence number, the message length recorded when
the sequence was first seen, and the received-fragment bitmap. -/
structure SeenEntry where
  seq : Nat
  msgLen : Nat
  positions : List Bool
deriving DecidableEq

/-- The transport's peek window: slot `i` is `packetlib_peek(i)`. -/
abbrev Window := List (Option (List Nat))

/-- Index of the entry tracking sequence `s` in the seen table. -/
def table_find : List SeenEntry → Nat → Option Nat
  | [], _ => none
  | e :: rest, s =>
    if e.seq = s then some 0 else (table_find rest s).map (fun i => i + 1)

/-- Set bit `b` of the positions bitmap of entry `i` (out-of-range bits are
dropped, where the C code would write past the malloc'd bitmap). -/
def mark_pos : List SeenEntry → Nat → Nat → List SeenEntry
  | [], _, _ => []
  | e :: rest, 0, b => { e with positions := e.positions.set b true } :: rest
  | e :: rest, i + 1, b => e :: mark_pos rest i b

/-- Registration of one valid packet (length ≥ 8, sequence ≠ 0) in the seen
table: find the entry for its sequence, creating it (bitmap of
`ceil (msgLen / D)` cleared bits) if the table still has capacity, then mark
bit `offset / D`. -/
def scan_step (D cap : Nat) (p : List Nat) (tbl : List SeenEntry) : List SeenEntry :=
  let s := pktSeq p
  let mlen := pktLen p
  let need := (mlen + (D - 1)) / D
  let found :=
    match table_find tbl s with
    | some i => some (tbl, i)
    | none =>
      if tbl.length < cap then
        some (tbl ++ [⟨s, mlen, List.replicate need false⟩], tbl.length)
      else none
  match found with
  | some (tbl1, i) => if 0 < need then mark_pos tbl1 i (pktLoc p / D) else tbl1
  | none => tbl

/-- First pass of `message_recv` over the peek window: bogus packets
(shorter than a header, or sequence 0) are discarded from the transport,
valid ones are registered in the seen table. -/
def scan_go (D cap : Nat) : Window → List SeenEntry → Window × List SeenEntry
  | [], tbl => ([], tbl)
  | none :: rest, tbl =>
    let r := scan_go D cap rest tbl
    (none :: r.1, r.2)
  | some p :: rest, tbl =>
    if p.length < 8 then
      let r := scan_go D cap rest tbl
      (none :: r.1, r.2)
    else if pktSeq p = 0 then
      let r := scan_go D cap rest tbl
      (none :: r.1, r.2)
    else
      let r := scan_go D cap rest (scan_step D cap p tbl)
      (some p :: r.1, r.2)

/-- Completeness test of one seen entry: all `ceil (msgLen / D)` bitmap bits
are set (no bits are required when `msgLen = 0`). -/
def entry_complete (D : Nat) (e : SeenEntry) : Bool :=
  (List.range ((e.msgLen + (D - 1)) / D)).all (fun i => e.positions.getD i false)

/-- Copy `bs` into `buf` at offset `loc` (bytes falling outside `buf` are
dropped, where the C `memcpy` would write past the malloc'd buffer). -/
def write_at (buf : List Nat) (loc : Nat) (bs : List Nat) : List Nat :=
  buf.take loc ++ (bs.take (buf.length - loc) ++ buf.drop (loc + bs.length))

/-- Second pass of `message_recv` once a complete sequence `s` of length
`mlen` was found: every window slot holding a fragment of `s` contributes
its payload at its offset, sets the out-parameter `type` and is discarded. -/
def rescan_go (s mlen : Nat) : Window → Option Nat → List Nat →
    Window × Option Nat × List Nat
  | [], ty, buf => ([], ty, buf)
  | none :: rest, ty, buf =>
    let r := rescan_go s mlen rest ty buf
    (none :: r.1, r.2)
  | some p :: rest, ty, buf =>
    if p.length < 8 then
      let r := rescan_go s mlen rest ty buf
      (some p :: r.1, r.2)
    else if pktSeq p ≠ s then
      let r := rescan_go s mlen rest ty buf
      (some p :: r.1, r.2)
    else
      let buf2 := if 0 < mlen then write_at buf (pktLoc p) (p.drop 8) else buf
      let r := rescan_go s mlen rest (some (pktType p)) buf2
      (none :: r.1, r.2)

/-- Result of `message_recv`: return code, and the three out-parameters
(`none` when the call does not write them), plus the peek window as left in
the transport. -/
structure RecvOut where
  code : Int
  mtype : Option Nat
  data : Option (List Nat)
  len : Option Nat
  window : Window
deriving DecidableEq

/-- Embedding of `message_recv`.  The seen tables have
`MAX_OUTSTANDING_PACKETS` entries, the same bound as the peek window, so the
capacity passed to the first pass is the window length. -/
def message_recv (D : Nat) (w : Window) : RecvOut :=
  let r := scan_go D w.length w []
  match r.2.find? (fun e => entry_complete D e) with
  | none => ⟨-5, none, none, none, r.1⟩
  | some e =>
    let r2 := rescan_go e.seq e.msgLen r.1 none (List.replicate e.msgLen 0)
    ⟨0, r2.2.1, some r2.2.2, some e.msgLen, r2.1⟩

/-! Basic lemmas about the table helpers. -/

theorem insertFirst_full {α : Type} (x : α) :
    ∀ l : List (Option α), (∀ s ∈ l, s ≠ none) → insertFirst x l = none := by
  intro l
  induction l with
  | nil => intro _; rfl
  | cons s rest ih =>
    intro h
    match s with
    | none => exact absurd rfl (h none (List.mem_cons_self _ _))
    | some y =>
      have : insertFirst x rest = none := ih (fun s hs => h s (List.mem_cons_of_mem _ hs))
      simp [insertFirst, this]

theorem insertFirst_slot {α : Type} (x : α) :
    ∀ l l2 : List (Option α), insertFirst x l = some l2 →
      ∃ j, l2.getD j none = some x := by
  intro l
  induction l with
  | nil => intro l2 h; simp [insertFirst] at h
  | cons s rest ih =>
    intro l2 h
    match s with
    | none =>
      simp [insertFirst] at h
      exact ⟨0, by rw [← h]; rfl⟩
    | some y =>
      simp only [insertFirst, Option.map_eq_some'] at h
      obtain ⟨r, hr, rfl⟩ := h
      obtain ⟨j, hj⟩ := ih r hr
      exact ⟨j + 1, by simpa using hj⟩

theorem update_by_id_getD :
    ∀ (tbl : ThreadTable) (a : Nat) (f : Thread → Thread) (j : Nat) (t : Thread),
      tbl.getD j none = some t →
      ∃ t2, (update_by_id tbl a f).getD j none = some t2 ∧ (t2 = t ∨ t2 = f t) := by
  intro tbl
  induction tbl with
  | nil => intro a f j t h; simp [List.getD] at h
  | cons s rest ih =>
    intro a f j t h
    match s with
    | none =>
      match j with
      | 0 => simp [List.getD_cons_zero] at h
      | j + 1 =>
        rw [List.getD_cons_succ] at h
        obtain ⟨t2, h2, h3⟩ := ih a f j t h
        exact ⟨t2, by simpa [update_by_id] using h2, h3⟩
    | some y =>
      by_cases hy : y.id = a
      · match j with
        | 0 =>
          rw [List.getD_cons_zero] at h
          exact ⟨f y, by simp [update_by_id, hy], Or.inr (by rw [← Option.some.inj h])⟩
        | j + 1 =>
          rw [List.getD_cons_succ] at h
          exact ⟨t, by simpa [update_by_id, hy] using h, Or.inl rfl⟩
      · match j with
        | 0 =>
          rw [List.getD_cons_zero] at h
          exact ⟨y, by simp [update_by_id, hy], Or.inl (Option.some.inj h)⟩
        | j + 1 =>
          rw [List.getD_cons_succ] at h
          obtain ⟨t2, h2, h3⟩ := ih a f j t h
          exact ⟨t2, by simpa [update_by_id, hy] using h2, h3⟩

theorem find_update_counter :
    ∀ (cs : CounterTable) (a : Nat) (f : Nat → Nat),
      _global_counter_find (update_counter cs a f) a =
        (_global_counter_find cs a).map f := by
  intro cs
  induction cs with
  | nil => intro a f; rfl
  | cons s rest ih =>
    intro a f
    match s with
    | none => simpa [update_counter, _global_counter_find] using ih a f
    | some c =>
      by_cases hc : c.addr = a
      · simp [update_counter, _global_counter_find, hc]
      · simpa [update_counter, _global_counter_find, hc] using ih a f

/-! Concrete descriptors and tables used in the claim scenarios. -/

/-- The idle thread in its initial configuration: priority `INT_MIN`, state
Running, context id 1. -/
def idleRun : Thread := ⟨"idle", 1, INT_MIN, TState.running, 1⟩

/-- A user thread in state Running at priority 0 (context id 2). -/
def thrA : Thread := ⟨"a", 2, 0, TState.running, 2⟩

/-- A user thread in state Running at priority 0 (context id 3). -/
def thrB : Thread := ⟨"b", 3, 0, TState.running, 3⟩

/-- The same user thread after `thread_stop`: Stopped at priority 0. -/
def thrBstopped : Thread := ⟨"b", 3, 0, TState.stopped, 3⟩

/-- Table reachable by: start A and B, then stop B (syscall #5). -/
def bugTbl : ThreadTable := [some idleRun, some thrA, some thrBstopped]

/-- CLAIM C1 (code_bug evidence).  The claim says `_thread_schedule` always
returns the context of a Running thread.  The code does not: in `bugTbl`
(idle Running at `INT_MIN`, A Running at 0, B Stopped at 0, a state reachable
by stopping B), scheduling away from A with request ANY returns context 3 —
the context of the Stopped thread B — because the round-robin loops of
`_thread_schedule` select band members by priority alone and never check the
state. -/
theorem schedule_can_return_stopped_thread :
    _thread_schedule bugTbl 2 Req.any = 3 ∧
    slotAt bugTbl 2 = some thrBstopped ∧ thrBstopped.context = 3 ∧
    thrBstopped.state = TState.stopped ∧
    slotAt bugTbl 1 = some thrA ∧ thrA.context = 2 ∧ thrA.state = TState.running :=
  ⟨rfl, rfl, rfl, rfl, rfl, rfl, rfl⟩

/-- CLAIM C4.  On a full table, `global_counter_init` returns the null
pointer and `_thread_create` returns a null descriptor, in both cases
leaving the table unchanged; the public `thread_create` then dereferences
that null descriptor (`thread->stack = ...`, `return thread->id`), which the
embedding records by propagating `none` in place of the returned id. -/
theorem create_on_full_tables (tbl : ThreadTable) (ctbl : CounterTable)
    (ht : ∀ s ∈ tbl, s ≠ none) (hc : ∀ s ∈ ctbl, s ≠ none)
    (counter addr v ctx : Nat) (name : String) :
    global_counter_init ctbl addr v = (ctbl, none) ∧
    _thread_create tbl counter name 0 = (tbl, counter, none) ∧
    thread_create tbl counter name ctx = (tbl, counter, none) := by
  have h1 : insertFirst (⟨addr, v % 2 ^ 32⟩ : GCounter) ctbl = none :=
    insertFirst_full _ _ hc
  have h2 : insertFirst (⟨name.take 63, counter, 0, TState.stopped, 0⟩ : Thread) tbl = none :=
    insertFirst_full _ _ ht
  refine ⟨?_, ?_, ?_⟩
  · simp only [global_counter_init, h1]
  · simp only [_thread_create, h2]
  · simp only [thread_create, _thread_create, h2]

/-- Witness for `create_on_full_tables` at a concrete one-slot full table. -/
theorem create_on_full_tables_witness :
    global_counter_init [some ⟨100, 5⟩] 200 7 = ([some ⟨100, 5⟩], none) ∧
    _thread_create [some idleRun] 5 "x" 0 = ([some idleRun], 5, none) ∧
    thread_create [some idleRun] 5 "x" 9 = ([some idleRun], 5, none) :=
  create_on_full_tables [some idleRun] [some ⟨100, 5⟩]
    (by simp) (by simp) 5 200 7 9 "x"

/-! Claim C2: the idle-thread invariant. -/

/-- Test whether a slot holds a live idle thread: priority `INT_MIN` and
state Running. -/
def isIdleSlot (s : Option Thread) : Bool :=
  match s with
  | some t => decide (t.priority = INT_MIN) && decide (t.state = TState.running)
  | none => false

/-- The idle-thread invariant of the specification: some descriptor with
priority `INT_MIN` is in state Running. -/
def idleAlive (tbl : ThreadTable) : Prop := tbl.any isIdleSlot = true

theorem update_by_id_any_idle (tbl : ThreadTable) (a : Nat) (f : Thread → Thread)
    (h : tbl.any isIdleSlot = true)
    (hf : ∀ t, some t ∈ tbl → isIdleSlot (some t) = true → t.id = a →
      isIdleSlot (some (f t)) = true) :
    (update_by_id tbl a f).any isIdleSlot = true := by
  induction tbl with
  | nil => simp at h
  | cons s rest ih =>
    match s with
    | none =>
      simp only [List.any_cons, isIdleSlot, Bool.false_or] at h
      have := ih h (fun t ht => hf t (List.mem_cons_of_mem _ ht))
      simp [update_by_id, isIdleSlot, this]
    | some y =>
      by_cases hy : y.id = a
      · rw [List.any_cons, Bool.or_eq_true] at h
        rcases h with h | h
        · have := hf y (List.mem_cons_self _ _) h hy
          simp [update_by_id, hy, this]
        · simp [update_by_id, hy, h]
      · rw [List.any_cons, Bool.or_eq_true] at h
        rcases h with h | h
        · simp [update_by_id, hy, h]
        · have := ih h (fun t ht => hf t (List.mem_cons_of_mem _ ht))
          simp [update_by_id, hy, this]

/-- The kernel state of the C2 counterexample: only the idle thread exists,
Running at priority `INT_MIN`, context 1, id 1. -/
def soloIdle : KState := ⟨[some idleRun], []⟩

/-- CLAIM C2 (counterexample).  The claim says every exposed operation,
including the thread_stop syscall (#5) applied to the idle thread's id,
keeps the idle thread Running.  It does not: syscall #5 with `a0 = 1` (the
idle thread's id) moves the idle thread from Running to Stopped, after which
no descriptor with priority `INT_MIN` is Running at all. -/
theorem thread_stop_kills_idle :
    idleAlive soloIdle.threads ∧
    ¬ idleAlive ((_syscall_trapa soloIdle 1 5 1 0).1.threads) := by
  refine ⟨rfl, fun h => ?_⟩
  have h2 : ((_syscall_trapa soloIdle 1 5 1 0).1.threads).any isIdleSlot = false := rfl
  have h3 : ((_syscall_trapa soloIdle 1 5 1 0).1.threads).any isIdleSlot = true := h
  rw [h2] at h3
  exact absurd h3 (by decide)

/-- CLAIM C2 (amended).  The idle-thread invariant is preserved by every
syscall except thread_stop (#5) and thread_priority (#6) applied to the id
of a priority-`INT_MIN` descriptor: if some descriptor with priority
`INT_MIN` is Running and, in case the syscall is #5 or #6, its argument does
not name such a descriptor, then after the syscall some descriptor with
priority `INT_MIN` is still Running (so the scheduler still has a Running
thread to find). -/
theorem idle_running_preserved (st : KState) (cur which a0 a1 : Nat)
    (hidle : idleAlive st.threads)
    (hno : which = 5 ∨ which = 6 →
      ∀ t, some t ∈ st.threads → t.priority = INT_MIN → t.id ≠ a0) :
    idleAlive ((_syscall_trapa st cur which a0 a1).1.threads) := by
  have e : (_syscall_trapa st cur which a0 a1).1 = (trapa_effect st cur which a0 a1).1 := rfl
  rw [e]
  rcases which with _ | _ | _ | _ | _ | _ | _ | _ | n
  · exact hidle
  · exact hidle
  · exact hidle
  · exact hidle
  · -- thread_start: a Running idle thread is left unchanged by the update
    refine update_by_id_any_idle _ _ _ hidle (fun t _ hi _ => ?_)
    simp only [isIdleSlot, Bool.and_eq_true, decide_eq_true_eq] at hi
    simp [hi.2, hi.1, isIdleSlot]
  · -- thread_stop: by hypothesis the argument does not name an idle thread
    refine update_by_id_any_idle _ _ _ hidle (fun t hmem hi hid => ?_)
    simp only [isIdleSlot, Bool.and_eq_true, decide_eq_true_eq] at hi
    exact absurd hid (hno (Or.inl rfl) t hmem hi.1)
  · -- thread_priority: by hypothesis the argument does not name an idle thread
    refine update_by_id_any_idle _ _ _ hidle (fun t hmem hi hid => ?_)
    simp only [isIdleSlot, Bool.and_eq_true, decide_eq_true_eq] at hi
    exact absurd hid (hno (Or.inr rfl) t hmem hi.1)
  · exact hidle
  · exact hidle

/-- Kernel state with the idle thread and a Running user thread. -/
def idleAndA : KState := ⟨[some idleRun, some thrA], []⟩

/-- Witness for `idle_running_preserved`: stopping the user thread (id 2)
via syscall #5 leaves the idle thread Running. -/
theorem idle_running_preserved_witness :
    idleAlive ((_syscall_trapa idleAndA 1 5 2 0).1.threads) := by
  refine idle_running_preserved idleAndA 1 5 2 0 rfl ?_
  intro _ t hmem hpri
  rcases List.mem_cons.mp hmem with h1 | h2
  · cases Option.some.inj h1; decide
  · rcases List.mem_cons.mp h2 with h3 | h4
    · cases Option.some.inj h3
      exact absurd hpri (by decide)
    · simp at h4

/-! Claim C8: counter decrement saturation and the value bound. -/

theorem trapa_inc (st : KState) (cur a a1 v : Nat)
    (h : _global_counter_find st.counters a = some v) :
    _global_counter_find ((trapa_effect st cur 0 a a1).1.counters) a =
      some ((v + 1) % 2 ^ 32) := by
  have e : (trapa_effect st cur 0 a a1).1.counters =
      update_counter st.counters a (fun w => (w + 1) % 2 ^ 32) := by
    simp only [trapa_effect, h]
  rw [e, find_update_counter, h, Option.map_some']

theorem trapa_dec (st : KState) (cur a a1 v : Nat)
    (h : _global_counter_find st.counters a = some v) :
    _global_counter_find ((trapa_effect st cur 1 a a1).1.counters) a =
      some (if v = 0 then 0 else v - 1) := by
  match v with
  | 0 =>
    have e : (trapa_effect st cur 1 a a1).1.counters = st.counters := by
      simp only [trapa_effect, h]; rfl
    rw [e, h]; simp
  | w + 1 =>
    have e : (trapa_effect st cur 1 a a1).1.counters =
        update_counter st.counters a (fun x => x - 1) := by
      simp only [trapa_effect, h]
      rw [if_pos (Nat.succ_pos w)]
    rw [e, find_update_counter, h, Option.map_some']
    simp

/-- Iterated application of the counter syscalls (`o = 0` increments,
`o = 1` decrements) to the counter at address `a`. -/
def run_counter_ops (cur a : Nat) : KState → List Nat → KState
  | st, [] => st
  | st, o :: ops => run_counter_ops cur a ((trapa_effect st cur o a 0).1) ops

theorem run_ops_le (cur a : Nat) :
    ∀ (ops : List Nat) (st : KState) (v k : Nat),
      (∀ o ∈ ops, o = 0 ∨ o = 1) →
      _global_counter_find st.counters a = some v → v ≤ k →
      ∃ v2, _global_counter_find (run_counter_ops cur a st ops).counters a = some v2 ∧
        v2 ≤ k + ops.count 0 := by
  intro ops
  induction ops with
  | nil => intro st v k _ h hv; exact ⟨v, h, by simpa using hv⟩
  | cons o ops ih =>
    intro st v k hops h hv
    rcases hops o (List.mem_cons_self _ _) with rfl | rfl
    · have h2 := trapa_inc st cur a 0 v h
      obtain ⟨v2, h3, h4⟩ := ih ((trapa_effect st cur 0 a 0).1) ((v + 1) % 2 ^ 32) (k + 1)
        (fun o ho => hops o (List.mem_cons_of_mem _ ho)) h2
        (le_trans (Nat.mod_le _ _) (Nat.add_le_add_right hv 1))
      refine ⟨v2, h3, ?_⟩
      have : (0 :: ops).count 0 = ops.count 0 + 1 := by simp [List.count_cons]
      omega
    · have h2 := trapa_dec st cur a 0 v h
      obtain ⟨v2, h3, h4⟩ := ih ((trapa_effect st cur 1 a 0).1) (if v = 0 then 0 else v - 1) k
        (fun o ho => hops o (List.mem_cons_of_mem _ ho)) h2
        (by split <;> omega)
      refine ⟨v2, h3, ?_⟩
      have : (1 :: ops).count 0 = ops.count 0 := by simp [List.count_cons]
      omega

/-- CLAIM C8.  The decrement syscall (#1) is a no-op when the counter value
is 0 and subtracts exactly 1 otherwise; consequently, starting from a
counter registered with value 0, after any sequence of increment (#0) and
decrement (#1) syscalls the observed value (a natural number, hence never
below 0) never exceeds the number of increments in the sequence. -/
theorem counter_saturation :
    (∀ (st : KState) (cur a a1 v : Nat),
      _global_counter_find st.counters a = some v →
      _global_counter_find ((trapa_effect st cur 1 a a1).1.counters) a =
        some (if v = 0 then 0 else v - 1)) ∧
    (∀ (cur a : Nat) (ops : List Nat) (st : KState),
      (∀ o ∈ ops, o = 0 ∨ o = 1) →
      _global_counter_find st.counters a = some 0 →
      ∃ v, _global_counter_find (run_counter_ops cur a st ops).counters a = some v ∧
        v ≤ ops.count 0) := by
  refine ⟨trapa_dec, fun cur a ops st h1 h2 => ?_⟩
  obtain ⟨v2, h3, h4⟩ := run_ops_le cur a ops st 0 0 h1 h2 (le_refl 0)
  exact ⟨v2, h3, by simpa using h4⟩

/-- Witness for `counter_saturation` on the sequence inc, inc, dec. -/
theorem counter_saturation_witness :
    ∃ v, _global_counter_find
        (run_counter_ops 1 100 ⟨[], [some ⟨100, 0⟩]⟩ [0, 0, 1]).counters 100 = some v ∧
      v ≤ [0, 0, 1].count 0 :=
  counter_saturation.2 1 100 [0, 0, 1] ⟨[], [some ⟨100, 0⟩]⟩ (by decide) rfl

/-! Claim C10: defaults of the public thread_create. -/

set_option maxRecDepth 4000 in
/-- CLAIM C10.  Every thread allocated through the public `thread_create`
(regardless of its name, and of the entry function and argument, which only
enter the externally allocated context) ends up in the table with priority 0
and state Stopped under the returned id; and the init path creates the idle
thread at priority `INT_MIN`, Running, with id 1 and the idle context. -/
theorem thread_create_defaults :
    (∀ (tbl : ThreadTable) (counter : Nat) (name : String) (ctx : Nat)
        (tbl2 : ThreadTable) (c2 tid : Nat),
      thread_create tbl counter name ctx = (tbl2, c2, some tid) →
      ∃ j t, slotAt tbl2 j = some t ∧ t.id = tid ∧ t.priority = 0 ∧
        t.state = TState.stopped) ∧
    (∀ (idleCtx n : Nat), 0 < n →
      ∃ t, slotAt (_thread_init idleCtx n).1 0 = some t ∧
        t.priority = INT_MIN ∧ t.state = TState.running ∧ t.id = 1 ∧
        t.context = idleCtx) := by
  constructor
  · intro tbl counter name ctx tbl2 c2 tid h
    rcases hins : insertFirst (⟨name.take 63, counter, 0, TState.stopped, 0⟩ : Thread) tbl with
      _ | tblp
    · rw [thread_create, _thread_create] at h
      simp only [hins, Prod.mk.injEq] at h
      exact Option.noConfusion h.2.2
    · rw [thread_create, _thread_create] at h
      simp only [hins, Prod.mk.injEq] at h
      obtain ⟨h1, h2, h3⟩ := h
      obtain ⟨j, hj⟩ := insertFirst_slot _ tbl tblp hins
      obtain ⟨t2, ht2, hcases⟩ := update_by_id_getD tblp counter
        (fun t => { t with context := ctx }) j _ hj
      refine ⟨j, t2, ?_, ?_, ?_, ?_⟩
      · rw [slotAt, ← h1]; exact ht2
      · have h4 : tid = counter := (Option.some.inj h3).symm
        rcases hcases with rfl | rfl <;> simp [h4]
      · rcases hcases with rfl | rfl <;> rfl
      · rcases hcases with rfl | rfl <;> rfl
  · intro idleCtx n hn
    obtain ⟨m, rfl⟩ := Nat.exists_eq_succ_of_ne_zero (Nat.pos_iff_ne_zero.mp hn)
    refine ⟨⟨"idle".take 63, 1, INT_MIN, TState.running, idleCtx⟩, ?_, rfl, rfl, rfl, rfl⟩
    simp only [_thread_init, _thread_create, List.replicate_succ, insertFirst]
    rfl

/-- Witness for `thread_create_defaults`. -/
theorem thread_create_defaults_witness :
    (∃ j t, slotAt (thread_create [none] 5 "x" 9).1 j = some t ∧ t.id = 5 ∧
      t.priority = 0 ∧ t.state = TState.stopped) ∧
    (∃ t, slotAt (_thread_init 44 1).1 0 = some t ∧
      t.priority = INT_MIN ∧ t.state = TState.running ∧ t.id = 1 ∧
      t.context = 44) :=
  ⟨thread_create_defaults.1 [none] 5 "x" 9 _ _ 5 rfl,
   thread_create_defaults.2 44 1 (by decide)⟩

/-! Fragment structure lemmas for the message sender. -/

/-- The header is the literal 8-byte little-endian rendering of the four
16-bit fields. -/
theorem mkHeader_eq (ty sq len loc : Nat) :
    mkHeader ty sq len loc =
      [ty % 256, ty / 256 % 256, sq % 256, sq / 256 % 256,
       len % 256, len / 256 % 256, loc % 256, loc / 256 % 256] := rfl

theorem pktType_fragAt (D ty sq : Nat) (data : List Nat) (i : Nat)
    (h : ty < 65536) : pktType (fragAt D ty sq data i) = ty := by
  simp only [fragAt, mkHeader_eq, List.cons_append, List.nil_append, pktType,
    List.getD_cons_succ, List.getD_cons_zero, decLE16]
  omega

theorem pktSeq_fragAt (D ty sq : Nat) (data : List Nat) (i : Nat)
    (h : sq < 65536) : pktSeq (fragAt D ty sq data i) = sq := by
  simp only [fragAt, mkHeader_eq, List.cons_append, List.nil_append, pktSeq,
    List.getD_cons_succ, List.getD_cons_zero, decLE16]
  omega

theorem pktLen_fragAt (D ty sq : Nat) (data : List Nat) (i : Nat)
    (h : data.length < 65536) : pktLen (fragAt D ty sq data i) = data.length := by
  simp only [fragAt, mkHeader_eq, List.cons_append, List.nil_append, pktLen,
    List.getD_cons_succ, List.getD_cons_zero, decLE16]
  omega

theorem pktLoc_fragAt (D ty sq : Nat) (data : List Nat) (i : Nat)
    (h : i * D < 65536) : pktLoc (fragAt D ty sq data i) = i * D := by
  simp only [fragAt, mkHeader_eq, List.cons_append, List.nil_append, pktLoc,
    List.getD_cons_succ, List.getD_cons_zero, decLE16]
  omega

theorem fragAt_length (D ty sq : Nat) (data : List Nat) (i : Nat) :
    (fragAt D ty sq data i).length = 8 + min D (data.length - i * D) := by
  simp [fragAt, mkHeader_eq, List.length_append, List.length_take, List.length_drop]
  omega

theorem fragAt_length_ge (D ty sq : Nat) (data : List Nat) (i : Nat) :
    8 ≤ (fragAt D ty sq data i).length := by
  rw [fragAt_length]; omega

theorem fragAt_drop8 (D ty sq : Nat) (data : List Nat) (i : Nat) :
    (fragAt D ty sq data i).drop 8 = (data.drop (i * D)).take D := by
  have h : (mkHeader ty sq data.length (i * D)).length = 8 := rfl
  rw [fragAt, ← h, List.drop_left]

theorem lt_numFragments (D len k : Nat) (hD : 0 < D)
    (h : k * D = 0 ∨ k * D < len) : k < numFragments D len := by
  rcases h with h | h
  · have hk : k = 0 := by
      rcases Nat.mul_eq_zero.mp h with h2 | h2
      · exact h2
      · omega
    subst hk
    rw [numFragments]
    split
    · omega
    · rename_i hlen
      have : 1 ≤ (len + (D - 1)) / D := (Nat.le_div_iff_mul_le hD).mpr (by omega)
      omega
  · have hlen : len ≠ 0 := by omega
    rw [numFragments, if_neg hlen]
    have : k + 1 ≤ (len + (D - 1)) / D := (Nat.le_div_iff_mul_le hD).mpr (by
      have : (k + 1) * D = k * D + D := by ring
      omega)
    omega

theorem mul_lt_of_lt_numFragments (D len k : Nat) (hD : 0 < D) (hlen : 0 < len)
    (hk : k < numFragments D len) : k * D < len := by
  rw [numFragments, if_neg (by omega : len ≠ 0)] at hk
  have h2 : (k + 1) * D ≤ len + (D - 1) := (Nat.le_div_iff_mul_le hD).mp hk
  have h3 : (k + 1) * D = k * D + D := by ring
  omega

theorem numFragments_last (D len k : Nat) (hD : 0 < D)
    (h2 : k * D = 0 ∨ k * D < len) (h3 : ¬(k * D + D < len)) :
    numFragments D len = k + 1 := by
  rcases Nat.eq_zero_or_pos len with hlen | hlen
  · subst hlen
    have hk : k = 0 := by
      rcases h2 with h | h
      · rcases Nat.mul_eq_zero.mp h with h4 | h4
        · exact h4
        · omega
      · omega
    subst hk; rfl
  · have hkD : k * D < len := by
      rcases h2 with h | h
      · omega
      · exact h
    rw [numFragments, if_neg (by omega : len ≠ 0)]
    have hle : k + 1 ≤ (len + (D - 1)) / D := (Nat.le_div_iff_mul_le hD).mpr (by
      have : (k + 1) * D = k * D + D := by ring
      omega)
    have hlt : (len + (D - 1)) / D < k + 2 := (Nat.div_lt_iff_lt_mul hD).mpr (by
      have : (k + 2) * D = k * D + D + D := by ring
      omega)
    omega

/-- The fragments with indices `k ≤ j < m`. -/
def fragSeg (D ty sq : Nat) (data : List Nat) (k m : Nat) : List (List Nat) :=
  (List.range (m - k)).map (fun j => fragAt D ty sq data (k + j))

theorem fragSeg_self (D ty sq : Nat) (data : List Nat) (k : Nat) :
    fragSeg D ty sq data k k = [] := by simp [fragSeg]

theorem fragSeg_single (D ty sq : Nat) (data : List Nat) (k : Nat) :
    fragSeg D ty sq data k (k + 1) = [fragAt D ty sq data k] := by
  simp [fragSeg, List.range_succ]

theorem fragSeg_cons (D ty sq : Nat) (data : List Nat) (k m : Nat) (hkm : k < m) :
    fragAt D ty sq data k :: fragSeg D ty sq data (k + 1) m =
      fragSeg D ty sq data k m := by
  have h : m - k = (m - (k + 1)) + 1 := by omega
  rw [fragSeg, fragSeg, h, List.range_succ_eq_map, List.map_cons, List.map_map]
  refine congrArg₂ _ (by simp) (List.map_congr_left fun j _ => ?_)
  show fragAt D ty sq data (k + 1 + j) = fragAt D ty sq data (k + (j + 1))
  exact congrArg _ (by omega)

theorem fragList_eq_seg (D ty sq : Nat) (data : List Nat) :
    fragList D ty sq data = fragSeg D ty sq data 0 (numFragments D data.length) := by
  simp [fragList, fragSeg]

theorem mem_fragSeg (D ty sq : Nat) (data : List Nat) (k m : Nat) (p : List Nat)
    (h : p ∈ fragSeg D ty sq data k m) : ∃ j, p = fragAt D ty sq data j := by
  rw [fragSeg, List.mem_map] at h
  obtain ⟨a, _, ha⟩ := h
  exact ⟨k + a, ha.symm⟩

theorem mem_fragList (D ty sq : Nat) (data : List Nat) (j : Nat)
    (h : j < numFragments D data.length) :
    fragAt D ty sq data j ∈ fragList D ty sq data := by
  rw [fragList, List.mem_map]
  exact ⟨j, List.mem_range.mpr h, rfl⟩

/-! Characterization of the send loop for an arbitrary transport. -/

theorem send_loop_char (t : List Nat → Int) (D ty sq : Nat) (data : List Nat)
    (hD : 0 < D) :
    ∀ (fuel k : Nat), data.length - k * D < fuel →
      (k * D = 0 ∨ k * D < data.length) →
      ∃ ps c,
        send_loop t D ty sq data.length fuel (k * D) (data.drop (k * D)) =
          some (ps, c) ∧
        ((c = 0 ∧ ps = fragSeg D ty sq data k (numFragments D data.length) ∧
           ∀ j, k ≤ j → j < numFragments D data.length →
             t (fragAt D ty sq data j) = 0) ∨
         (c = -4 ∧ ∃ m, k ≤ m ∧ m < numFragments D data.length ∧
            ps = fragSeg D ty sq data k m ∧ t (fragAt D ty sq data m) ≠ 0 ∧
            ∀ j, k ≤ j → j < m → t (fragAt D ty sq data j) = 0)) := by
  intro fuel
  induction fuel with
  | zero => intro k h1 h2; omega
  | succ fuel ih =>
    intro k h1 h2
    have hkn : k < numFragments D data.length := lt_numFragments D data.length k hD h2
    have hpkt : mkHeader ty sq data.length (k * D) ++ (data.drop (k * D)).take D =
        fragAt D ty sq data k := rfl
    by_cases ht : t (fragAt D ty sq data k) = 0
    · by_cases hlt : k * D + D < data.length
      · have e2 : k * D + D = (k + 1) * D := by ring
        have h1p : data.length - (k + 1) * D < fuel := by rw [← e2]; omega
        have h2p : (k + 1) * D = 0 ∨ (k + 1) * D < data.length :=
          Or.inr (by rw [← e2]; omega)
        obtain ⟨ps, c, heq, hdisj⟩ := ih (k + 1) h1p h2p
        refine ⟨fragAt D ty sq data k :: ps, c, ?_, ?_⟩
        · have e3 : List.drop D (List.drop (k * D) data) = List.drop ((k + 1) * D) data := by
            rw [List.drop_drop, ← e2]
          simp only [send_loop, hpkt]
          rw [if_pos ht, if_pos hlt, e3, e2, heq]
        · rcases hdisj with ⟨hc0, hps, hall⟩ | ⟨hc4, m, hkm, hmn, hps, hfail, hall⟩
          · refine Or.inl ⟨hc0, ?_, fun j hj1 hj2 => ?_⟩
            · rw [hps]; exact fragSeg_cons D ty sq data k _ hkn
            · rcases Nat.eq_or_lt_of_le hj1 with rfl | hj3
              · exact ht
              · exact hall j hj3 hj2
          · refine Or.inr ⟨hc4, m, by omega, hmn, ?_, hfail, fun j hj1 hj2 => ?_⟩
            · rw [hps]; exact fragSeg_cons D ty sq data k m (by omega)
            · rcases Nat.eq_or_lt_of_le hj1 with rfl | hj3
              · exact ht
              · exact hall j hj3 hj2
      · have hn : numFragments D data.length = k + 1 :=
          numFragments_last D data.length k hD h2 hlt
        refine ⟨[fragAt D ty sq data k], 0, ?_, Or.inl ⟨rfl, ?_, fun j hj1 hj2 => ?_⟩⟩
        · simp only [send_loop, hpkt]
          rw [if_pos ht, if_neg hlt]
        · rw [hn, fragSeg_single]
        · have hjk : j = k := by omega
          subst hjk; exact ht
    · refine ⟨[], -4, ?_, Or.inr ⟨rfl, k, le_refl k, hkn, (fragSeg_self D ty sq data k).symm,
        ht, fun j hj1 hj2 => by omega⟩⟩
      simp only [send_loop, hpkt]
      rw [if_neg ht]

theorem message_send_char (t : List Nat → Int) (D sq ty : Nat) (data : List Nat)
    (hD : 0 < D) (hlen : data.length ≤ 65535) :
    ∃ out, message_send t D sq ty data = some out ∧
      ((out.code = 0 ∧ out.sent = fragList D ty sq data ∧
         out.seq = next_sequence sq ∧
         ∀ j, j < numFragments D data.length → t (fragAt D ty sq data j) = 0) ∨
       (out.code = -4 ∧ out.seq = sq ∧ ∃ m, m < numFragments D data.length ∧
          out.sent = fragSeg D ty sq data 0 m ∧ t (fragAt D ty sq data m) ≠ 0 ∧
          ∀ j, j < m → t (fragAt D ty sq data j) = 0)) := by
  have h0 := send_loop_char t D ty sq data hD (data.length + 1) 0
    (by simp) (Or.inl (by simp))
  simp only [Nat.zero_mul, List.drop_zero] at h0
  obtain ⟨ps, c, heq, hdisj⟩ := h0
  rcases hdisj with ⟨hc0, hps, hall⟩ | ⟨hc4, m, _, hmn, hps, hfail, hall⟩
  · subst hc0
    refine ⟨⟨ps, 0, next_sequence sq⟩, ?_, Or.inl ⟨rfl, ?_, rfl, fun j hj => hall j (by omega) hj⟩⟩
    · rw [message_send, if_neg (by omega), heq]; rfl
    · rw [hps, fragList_eq_seg]
  · subst hc4
    refine ⟨⟨ps, -4, sq⟩, ?_, Or.inr ⟨rfl, rfl, m, hmn, hps, hfail,
        fun j hj => hall j (by omega) hj⟩⟩
    rw [message_send, if_neg (by omega), heq]
    norm_num

theorem message_send_ok (D sq ty : Nat) (data : List Nat)
    (hD : 0 < D) (hlen : data.length ≤ 65535) :
    message_send okTransport D sq ty data =
      some ⟨fragList D ty sq data, 0, next_sequence sq⟩ := by
  obtain ⟨out, heq, hdisj⟩ := message_send_char okTransport D sq ty data hD hlen
  rcases hdisj with ⟨hc0, hps, hq, _⟩ | ⟨_, _, m, _, _, hfail, _⟩
  · rcases out with ⟨s, c, q⟩
    simp only at hc0 hps hq
    subst hc0; subst hps; subst hq
    exact heq
  · exact absurd rfl hfail

/-- CLAIM C7.  `message_send` rejects payloads longer than 65535 bytes with
-3 before emitting anything; a transport failure aborts the loop with -4
leaving exactly the fragments before the failing one sent (no unwinding);
and the sequence counter is bumped only on the all-fragments-sent success
path, remaining unchanged on either error return. -/
theorem message_send_error_codes :
    (∀ (t : List Nat → Int) (D sq ty : Nat) (data : List Nat),
      65535 < data.length → message_send t D sq ty data = some ⟨[], -3, sq⟩) ∧
    (∀ (t : List Nat → Int) (D sq ty : Nat) (data : List Nat) (out : SendOut),
      0 < D → data.length ≤ 65535 → message_send t D sq ty data = some out →
      (out.code = 0 ∨ out.code = -4) ∧
      (out.code = -4 → out.seq = sq ∧ ∃ m, m < numFragments D data.length ∧
        out.sent = fragSeg D ty sq data 0 m ∧ t (fragAt D ty sq data m) ≠ 0 ∧
        ∀ j, j < m → t (fragAt D ty sq data j) = 0) ∧
      (out.code = 0 → out.seq = next_sequence sq ∧
        out.sent = fragList D ty sq data)) := by
  constructor
  · intro t D sq ty data h
    rw [message_send, if_pos (by omega)]
  · intro t D sq ty data out hD hlen hsend
    obtain ⟨out2, heq2, hdisj⟩ := message_send_char t D sq ty data hD hlen
    rw [hsend] at heq2
    cases Option.some.inj heq2
    rcases hdisj with ⟨hc0, hps, hq, _⟩ | ⟨hc4, hq, m, hmn, hps, hfail, hall⟩
    · exact ⟨Or.inl hc0, fun h4 => absurd (hc0 ▸ h4) (by decide),
        fun _ => ⟨hq, hps⟩⟩
    · refine ⟨Or.inr hc4, fun _ => ⟨hq, m, hmn, hps, hfail, hall⟩,
        fun h0 => absurd (hc4 ▸ h0) (by decide)⟩

/-- A transport that rejects the fragment whose offset field is 2 and
accepts everything else. -/
def failSecond : List Nat → Int := fun p => if p.getD 6 0 = 2 then 1 else 0

/-- Witness for `message_send_error_codes`: the oversize rejection on a
65536-byte payload, and a failing transport that accepts the first fragment
of a two-fragment message and rejects the second. -/
theorem message_send_error_codes_witness :
    message_send okTransport 2 1 3 (List.replicate 65536 0) = some ⟨[], -3, 1⟩ ∧
    ((SendOut.mk [[3, 0, 1, 0, 3, 0, 0, 0, 10, 20]] (-4) 1).code = 0 ∨
      (SendOut.mk [[3, 0, 1, 0, 3, 0, 0, 0, 10, 20]] (-4) 1).code = -4) :=
  ⟨message_send_error_codes.1 okTransport 2 1 3 (List.replicate 65536 0)
      (by rw [List.length_replicate]; omega),
   (message_send_error_codes.2 failSecond 2 1 3 [10, 20, 30]
      ⟨[[3, 0, 1, 0, 3, 0, 0, 0, 10, 20]], -4, 1⟩
      (by decide) (by decide) rfl).1⟩

/-! Claim C9: the sequence counter. -/

/-- The sequence counter after `n` successful sends starting from a freshly
initialised counter (`static uint16_t sequence = 1`). -/
def seq_iter : Nat → Nat
  | 0 => 1
  | n + 1 => next_sequence (seq_iter n)

theorem next_sequence_bounds (s : Nat) :
    0 < next_sequence s ∧ next_sequence s < 65536 := by
  rw [next_sequence]
  split
  · omega
  · have h1 : (s + 1) % 65536 < 65536 := Nat.mod_lt _ (by omega)
    omega

theorem seq_iter_bounds (n : Nat) : 0 < seq_iter n ∧ seq_iter n < 65536 := by
  induction n with
  | zero => exact ⟨Nat.one_pos, by decide⟩
  | succ n _ => exact next_sequence_bounds (seq_iter n)

theorem seq_iter_eq (k : Nat) (h : k ≤ 65534) : seq_iter k = k + 1 := by
  induction k with
  | zero => rfl
  | succ k ih =>
    rw [seq_iter, ih (by omega), next_sequence]
    have h1 : (k + 1 + 1) % 65536 = k + 2 := Nat.mod_eq_of_lt (by omega)
    rw [h1, if_neg (by omega)]

/-- CLAIM C9.  The sender's sequence counter starts at 1 and always lies in
[1, 65535]; every fragment of every send carries the current sequence value
(so a fragment is never emitted with sequence 0); after each successful
send the counter advances by `next_sequence`, and after 65535 sends from a
fresh counter the next sequence used is 1 again, not 0. -/
theorem sequence_skips_zero :
    (∀ s, 0 < next_sequence s ∧ next_sequence s < 65536) ∧
    (∀ n, 0 < seq_iter n ∧ seq_iter n < 65536) ∧
    seq_iter 0 = 1 ∧ seq_iter 65535 = 1 ∧
    (∀ (t : List Nat → Int) (D sq ty : Nat) (data : List Nat) (out : SendOut)
        (p : List Nat),
      0 < D → sq < 65536 → message_send t D sq ty data = some out →
      p ∈ out.sent → pktSeq p = sq) ∧
    (∀ (t : List Nat → Int) (D sq ty : Nat) (data : List Nat) (out : SendOut),
      0 < D → message_send t D sq ty data = some out → out.code = 0 →
      out.seq = next_sequence sq) := by
  refine ⟨next_sequence_bounds, seq_iter_bounds, rfl, ?_, ?_, ?_⟩
  · have h1 : seq_iter 65534 = 65535 := seq_iter_eq 65534 (by omega)
    show next_sequence (seq_iter 65534) = 1
    rw [h1]; rfl
  · intro t D sq ty data out p hD hsq hsend hmem
    by_cases hlen : data.length ≤ 65535
    · obtain ⟨out2, heq2, hdisj⟩ := message_send_char t D sq ty data hD hlen
      rw [hsend] at heq2
      cases Option.some.inj heq2
      rcases hdisj with ⟨_, hps, _, _⟩ | ⟨_, _, m, _, hps, _, _⟩
      · rw [hps, fragList_eq_seg] at hmem
        obtain ⟨j, rfl⟩ := mem_fragSeg D ty sq data _ _ p hmem
        exact pktSeq_fragAt D ty sq data j hsq
      · rw [hps] at hmem
        obtain ⟨j, rfl⟩ := mem_fragSeg D ty sq data _ _ p hmem
        exact pktSeq_fragAt D ty sq data j hsq
    · rw [message_send, if_pos (by omega)] at hsend
      cases Option.some.inj hsend
      simp at hmem
  · intro t D sq ty data out hD hsend hcode
    by_cases hlen : data.length ≤ 65535
    · obtain ⟨out2, heq2, hdisj⟩ := message_send_char t D sq ty data hD hlen
      rw [hsend] at heq2
      cases Option.some.inj heq2
      rcases hdisj with ⟨_, _, hq, _⟩ | ⟨hc4, _, _⟩
      · exact hq
      · exact absurd (hc4 ▸ hcode) (by decide)
    · rw [message_send, if_pos (by omega)] at hsend
      cases Option.some.inj hsend
      exact absurd hcode (by simp)

/-- Witness for `sequence_skips_zero`: the first fragment of a concrete
send carries sequence 1. -/
theorem sequence_skips_zero_witness :
    pktSeq [3, 0, 1, 0, 3, 0, 0, 0, 10, 20] = 1 :=
  sequence_skips_zero.2.2.2.2.1 okTransport 2 1 3 [10, 20, 30]
    ⟨[[3, 0, 1, 0, 3, 0, 0, 0, 10, 20], [3, 0, 1, 0, 3, 0, 2, 0, 30]], 0, 2⟩
    [3, 0, 1, 0, 3, 0, 0, 0, 10, 20]
    (by decide) (by decide) rfl (by simp)

/-! Claim C6: round-robin OTHER scheduling lemmas. -/

theorem findCtxAux_spec (ctx : Nat) :
    ∀ (l : List (Option Thread)) (i0 ci : Nat) (cur : Thread),
      findCtxAux ctx l i0 = some (ci, cur) →
      ∃ k, i0 + k = ci ∧ l.getD k none = some cur ∧ cur.context = ctx := by
  intro l
  induction l with
  | nil => intro i0 ci cur h; simp [findCtxAux] at h
  | cons s rest ih =>
    intro i0 ci cur h
    match s with
    | none =>
      obtain ⟨k, h1, h2, h3⟩ := ih (i0 + 1) ci cur h
      exact ⟨k + 1, by omega, by simpa using h2, h3⟩
    | some t =>
      by_cases htc : t.context = ctx
      · rw [findCtxAux, if_pos htc] at h
        obtain ⟨h1, h2⟩ := Prod.mk.injEq .. ▸ Option.some.inj h
        exact ⟨0, by omega, by rw [List.getD_cons_zero, h2], h2 ▸ htc⟩
      · rw [findCtxAux, if_neg htc] at h
        obtain ⟨k, h1, h2, h3⟩ := ih (i0 + 1) ci cur h
        exact ⟨k + 1, by omega, by simpa using h2, h3⟩

theorem find_by_context_spec (tbl : ThreadTable) (ctx ci : Nat) (cur : Thread)
    (h : _thread_find_by_context tbl ctx = some (ci, cur)) :
    tbl.getD ci none = some cur ∧ cur.context = ctx := by
  obtain ⟨k, h1, h2, h3⟩ := findCtxAux_spec ctx tbl 0 ci cur h
  have : k = ci := by omega
  subst this
  exact ⟨h2, h3⟩

theorem rr_next_some_true (P : Int) (ci : Nat) :
    ∀ (l : List (Option Thread)) (i0 c : Nat),
      rr_next P ci l i0 true = some c →
      ∃ k t, l.getD k none = some t ∧ t.priority = P ∧ t.context = c := by
  intro l
  induction l with
  | nil => intro i0 c h; simp [rr_next] at h
  | cons s rest ih =>
    intro i0 c h
    match s with
    | none =>
      obtain ⟨k, t, h1, h2, h3⟩ := ih (i0 + 1) c h
      exact ⟨k + 1, t, by simpa using h1, h2, h3⟩
    | some t =>
      by_cases hp : t.priority = P
      · rw [rr_next, if_neg (not_not_intro hp)] at h
        simp only [if_true] at h
        exact ⟨0, t, List.getD_cons_zero, hp, Option.some.inj h⟩
      · rw [rr_next, if_pos hp] at h
        obtain ⟨k, t2, h1, h2, h3⟩ := ih (i0 + 1) c h
        exact ⟨k + 1, t2, by simpa using h1, h2, h3⟩

theorem rr_next_some_false (P : Int) (ci : Nat) :
    ∀ (l : List (Option Thread)) (i0 c : Nat),
      rr_next P ci l i0 false = some c →
      ∃ k t, l.getD k none = some t ∧ t.priority = P ∧ t.context = c ∧
        ∃ kc tc, kc < k ∧ l.getD kc none = some tc ∧ tc.priority = P ∧
          i0 + kc = ci := by
  intro l
  induction l with
  | nil => intro i0 c h; simp [rr_next] at h
  | cons s rest ih =>
    intro i0 c h
    match s with
    | none =>
      obtain ⟨k, t, h1, h2, h3, kc, tc, h4, h5, h6, h7⟩ := ih (i0 + 1) c h
      exact ⟨k + 1, t, by simpa using h1, h2, h3, kc + 1, tc, by omega,
        by simpa using h5, h6, by omega⟩
    | some t =>
      by_cases hp : t.priority = P
      · rw [rr_next, if_neg (not_not_intro hp)] at h
        simp only [Bool.false_eq_true, if_false] at h
        by_cases hci : i0 = ci
        · rw [if_pos hci] at h
          obtain ⟨k, t2, h1, h2, h3⟩ := rr_next_some_true P ci rest (i0 + 1) c h
          exact ⟨k + 1, t2, by simpa using h1, h2, h3, 0, t, by omega,
            List.getD_cons_zero, hp, by omega⟩
        · rw [if_neg hci] at h
          obtain ⟨k, t2, h1, h2, h3, kc, tc, h4, h5, h6, h7⟩ := ih (i0 + 1) c h
          exact ⟨k + 1, t2, by simpa using h1, h2, h3, kc + 1, tc, by omega,
            by simpa using h5, h6, by omega⟩
      · rw [rr_next, if_pos hp] at h
        obtain ⟨k, t2, h1, h2, h3, kc, tc, h4, h5, h6, h7⟩ := ih (i0 + 1) c h
        exact ⟨k + 1, t2, by simpa using h1, h2, h3, kc + 1, tc, by omega,
          by simpa using h5, h6, by omega⟩

theorem rr_next_none_true (P : Int) (ci : Nat) :
    ∀ (l : List (Option Thread)) (i0 : Nat), rr_next P ci l i0 true = none →
      ∀ k t, l.getD k none = some t → t.priority ≠ P := by
  intro l
  induction l with
  | nil => intro i0 _ k t hk; simp [List.getD] at hk
  | cons s rest ih =>
    intro i0 h k t hk
    match s with
    | none =>
      match k with
      | 0 => rw [List.getD_cons_zero] at hk; exact Option.noConfusion hk
      | k + 1 => exact ih (i0 + 1) h k t (by simpa using hk)
    | some y =>
      by_cases hp : y.priority = P
      · rw [rr_next, if_neg (not_not_intro hp)] at h
        simp only [if_true] at h
        exact Option.noConfusion h
      · match k with
        | 0 =>
          rw [List.getD_cons_zero] at hk
          rw [← Option.some.inj hk]
          exact hp
        | k + 1 =>
          rw [rr_next, if_pos hp] at h
          exact ih (i0 + 1) h k t (by simpa using hk)

theorem rr_next_none_false (P : Int) (ci : Nat) :
    ∀ (l : List (Option Thread)) (i0 : Nat), rr_next P ci l i0 false = none →
      ∀ kc tc, l.getD kc none = some tc → tc.priority = P → i0 + kc = ci →
      ∀ k t, kc < k → l.getD k none = some t → t.priority ≠ P := by
  intro l
  induction l with
  | nil => intro i0 _ kc tc hkc _ _ k t _ hk; simp [List.getD] at hk
  | cons s rest ih =>
    intro i0 h kc tc hkc hpc hic k t hlt hk
    match s with
    | none =>
      match kc with
      | 0 => rw [List.getD_cons_zero] at hkc; exact Option.noConfusion hkc
      | kc + 1 =>
        match k, hlt with
        | k + 1, hlt =>
          exact ih (i0 + 1) h kc tc (by simpa using hkc) hpc (by omega)
            k t (by omega) (by simpa using hk)
    | some y =>
      by_cases hp : y.priority = P
      · rw [rr_next, if_neg (not_not_intro hp)] at h
        simp only [Bool.false_eq_true, if_false] at h
        by_cases hci : i0 = ci
        · rw [if_pos hci] at h
          match k, hlt with
          | k + 1, _ =>
            exact rr_next_none_true P ci rest (i0 + 1) h k t (by simpa using hk)
        · rw [if_neg hci] at h
          match kc with
          | 0 =>
            rw [List.getD_cons_zero] at hkc
            exact absurd (by omega : i0 = ci) hci
          | kc + 1 =>
            match k, hlt with
            | k + 1, hlt =>
              exact ih (i0 + 1) h kc tc (by simpa using hkc) hpc (by omega)
                k t (by omega) (by simpa using hk)
      · rw [rr_next, if_pos hp] at h
        match kc with
        | 0 =>
          rw [List.getD_cons_zero] at hkc
          rw [← Option.some.inj hkc] at hpc
          exact absurd hpc hp
        | kc + 1 =>
          match k, hlt with
          | k + 1, hlt =>
            exact ih (i0 + 1) h kc tc (by simpa using hkc) hpc (by omega)
              k t (by omega) (by simpa using hk)

theorem first_band_some (P : Int) :
    ∀ (l : List (Option Thread)) (c : Nat), first_band P l = some c →
      ∃ k t, l.getD k none = some t ∧ t.priority = P ∧ t.context = c ∧
        ∀ k2 t2, k2 < k → l.getD k2 none = some t2 → t2.priority ≠ P := by
  intro l
  induction l with
  | nil => intro c h; simp [first_band] at h
  | cons s rest ih =>
    intro c h
    match s with
    | none =>
      obtain ⟨k, t, h1, h2, h3, hmin⟩ := ih c h
      refine ⟨k + 1, t, by simpa using h1, h2, h3, fun k2 t2 hk2 hg => ?_⟩
      match k2 with
      | 0 => rw [List.getD_cons_zero] at hg; exact Option.noConfusion hg
      | k2 + 1 => exact hmin k2 t2 (by omega) (by simpa using hg)
    | some y =>
      by_cases hp : y.priority = P
      · rw [first_band, if_pos hp] at h
        exact ⟨0, y, List.getD_cons_zero, hp, Option.some.inj h,
          fun k2 t2 hk2 _ => by omega⟩
      · rw [first_band, if_neg hp] at h
        obtain ⟨k, t, h1, h2, h3, hmin⟩ := ih c h
        refine ⟨k + 1, t, by simpa using h1, h2, h3, fun k2 t2 hk2 hg => ?_⟩
        match k2 with
        | 0 =>
          rw [List.getD_cons_zero] at hg
          rw [← Option.some.inj hg]
          exact hp
        | k2 + 1 => exact hmin k2 t2 (by omega) (by simpa using hg)

theorem first_band_none (P : Int) :
    ∀ (l : List (Option Thread)), first_band P l = none →
      ∀ k t, l.getD k none = some t → t.priority ≠ P := by
  intro l
  induction l with
  | nil => intro _ k t hk; simp [List.getD] at hk
  | cons s rest ih =>
    intro h k t hk
    match s with
    | none =>
      match k with
      | 0 => rw [List.getD_cons_zero] at hk; exact Option.noConfusion hk
      | k + 1 => exact ih h k t (by simpa using hk)
    | some y =>
      by_cases hp : y.priority = P
      · rw [first_band, if_pos hp] at h
        exact Option.noConfusion h
      · rw [first_band, if_neg hp] at h
        match k with
        | 0 =>
          rw [List.getD_cons_zero] at hk
          rw [← Option.some.inj hk]
          exact hp
        | k + 1 => exact ih h k t (by simpa using hk)

/-- CLAIM C6.  With request OTHER, whenever the table holds another Running
thread (in a slot other than the current one) whose priority equals the band
priority computed by the scheduler, `_thread_schedule` returns the context
of a thread in a slot other than the current one — in particular a context
different from the input when no other slot aliases the input context.
Concretely (scenarios S1 and S3): with idle, A and B Running at priorities
`INT_MIN`, 0, 0, scheduling OTHER from A yields B and from B yields A; with
only the idle thread, scheduling OTHER from idle yields idle itself. -/
theorem schedule_other_selects_other :
    (∀ (tbl : ThreadTable) (state ci : Nat) (cur : Thread),
      _thread_find_by_context tbl state = some (ci, cur) →
      (∀ j t, slotAt tbl j = some t → t.context = state → j = ci) →
      (∃ j t, slotAt tbl j = some t ∧ j ≠ ci ∧ t.state = TState.running ∧
        t.priority = sched_priority Req.other ci tbl 0 INT_MIN) →
      _thread_schedule tbl state Req.other ≠ state ∧
        ∃ j t, slotAt tbl j = some t ∧ j ≠ ci ∧
          _thread_schedule tbl state Req.other = t.context) ∧
    _thread_schedule [some idleRun, some thrA, some thrB] 2 Req.other = 3 ∧
    _thread_schedule [some idleRun, some thrA, some thrB] 3 Req.other = 2 ∧
    _thread_schedule [some idleRun] 1 Req.other = 1 := by
  refine ⟨?_, rfl, rfl, rfl⟩
  intro tbl state ci cur hfind hnoalias hex
  obtain ⟨j0, t0, hj0, hj0ne, _, hprio0⟩ := hex
  rcases hrr : rr_next (sched_priority Req.other ci tbl 0 INT_MIN) ci tbl 0 false with _ | c
  · -- the round-robin loop found nothing after the current slot: wrap around
    rcases hfbs : first_band (sched_priority Req.other ci tbl 0 INT_MIN) tbl with _ | c
    · exact absurd hprio0 (first_band_none _ tbl hfbs j0 t0 hj0)
    · obtain ⟨km, tm, hkm, hpm, hcm, hmin⟩ := first_band_some _ tbl c hfbs
      have hkmne : km ≠ ci := by
        intro hkmci
        have hj0km : ¬ j0 < km := fun hlt => hmin j0 t0 hlt hj0 hprio0
        have hgt : km < j0 := by omega
        exact rr_next_none_false _ ci tbl 0 hrr km tm hkm hpm (by omega)
          j0 t0 hgt hj0 hprio0
      have hval : _thread_schedule tbl state Req.other = c := by
        simp only [_thread_schedule, hfind, hrr, hfbs]
        rw [if_neg (by simp)]
      refine ⟨?_, km, tm, hkm, hkmne, by rw [hval, ← hcm]⟩
      rw [hval, ← hcm]
      intro he
      exact hkmne (hnoalias km tm hkm he)
  · obtain ⟨k, t, hk, hp, hc, kc, tc, hlt, hkc, hpc, hic⟩ :=
      rr_next_some_false _ ci tbl 0 c hrr
    have hkne : k ≠ ci := by omega
    have hval : _thread_schedule tbl state Req.other = c := by
      simp only [_thread_schedule, hfind, hrr]
      rw [if_neg (by simp)]
    refine ⟨?_, k, t, hk, hkne, by rw [hval, ← hc]⟩
    rw [hval, ← hc]
    intro he
    exact hkne (hnoalias k t hk he)

/-- Witness for `schedule_other_selects_other` on the S1 configuration:
scheduling OTHER away from A (context 2) picks a thread in another slot. -/
theorem schedule_other_selects_other_witness :
    _thread_schedule [some idleRun, some thrA, some thrB] 2 Req.other ≠ 2 ∧
      ∃ j t, slotAt [some idleRun, some thrA, some thrB] j = some t ∧ j ≠ 1 ∧
        _thread_schedule [some idleRun, some thrA, some thrB] 2 Req.other =
          t.context := by
  refine schedule_other_selects_other.1 [some idleRun, some thrA, some thrB]
    2 1 thrA rfl ?_ ⟨2, thrB, rfl, by decide, rfl, by rfl⟩
  intro j t hj hc
  match j with
  | 0 =>
    have ht : t = idleRun := by
      simp only [slotAt, List.getD_cons_zero] at hj
      exact (Option.some.inj hj).symm
    rw [ht] at hc
    exact absurd hc (by decide)
  | 1 => rfl
  | 2 =>
    have ht : t = thrB := by
      simp only [slotAt, List.getD_cons_succ, List.getD_cons_zero] at hj
      exact (Option.some.inj hj).symm
    rw [ht] at hc
    exact absurd hc (by decide)
  | j + 3 =>
    simp [slotAt, List.getD_cons_succ, List.getD] at hj

/-! Claim C3: the not-ready path of message_recv. -/

theorem scan_go_valid_preserved (D cap : Nat) :
    ∀ (w : Window) (tbl : List SeenEntry) (i : Nat) (p : List Nat),
      w.getD i none = some p → 8 ≤ p.length → pktSeq p ≠ 0 →
      (scan_go D cap w tbl).1.getD i none = some p := by
  intro w
  induction w with
  | nil => intro tbl i p hi _ _; simp [List.getD] at hi
  | cons s rest ih =>
    intro tbl i p hi hlen hseq
    match s with
    | none =>
      match i with
      | 0 =>
        rw [List.getD_cons_zero] at hi
        exact Option.noConfusion hi
      | i + 1 =>
        rw [List.getD_cons_succ] at hi
        simp only [scan_go]
        rw [List.getD_cons_succ]
        exact ih tbl i p hi hlen hseq
    | some q =>
      by_cases h8 : q.length < 8
      · match i with
        | 0 =>
          rw [List.getD_cons_zero] at hi
          have : p = q := (Option.some.inj hi).symm
          subst this; omega
        | i + 1 =>
          rw [List.getD_cons_succ] at hi
          simp only [scan_go, if_pos h8]
          rw [List.getD_cons_succ]
          exact ih tbl i p hi hlen hseq
      · by_cases hq0 : pktSeq q = 0
        · match i with
          | 0 =>
            rw [List.getD_cons_zero] at hi
            have : p = q := (Option.some.inj hi).symm
            subst this; exact absurd hq0 hseq
          | i + 1 =>
            rw [List.getD_cons_succ] at hi
            simp only [scan_go, if_neg h8, if_pos hq0]
            rw [List.getD_cons_succ]
            exact ih tbl i p hi hlen hseq
        · match i with
          | 0 =>
            rw [List.getD_cons_zero] at hi
            simp only [scan_go, if_neg h8, if_neg hq0]
            rw [List.getD_cons_zero]
            exact hi
          | i + 1 =>
            rw [List.getD_cons_succ] at hi
            simp only [scan_go, if_neg h8, if_neg hq0]
            rw [List.getD_cons_succ]
            exact ih (scan_step D cap q tbl) i p hi hlen hseq

/-- CLAIM C3 (amended).  When `message_recv` finds no complete sequence it
returns -5, and every window slot holding a valid fragment (at least a full
header and a nonzero sequence) is left in place; only bogus slots are
discarded. -/
theorem recv_not_ready_keeps_valid_slots (D : Nat) (w : Window) (i : Nat)
    (p : List Nat) (hcode : (message_recv D w).code = -5)
    (hi : w.getD i none = some p)
    (hlen : 8 ≤ p.length) (hseq : pktSeq p ≠ 0) :
    (message_recv D w).window.getD i none = some p := by
  rcases hfind : (scan_go D w.length w []).2.find? (fun e => entry_complete D e) with
    _ | e
  · have hwin : (message_recv D w).window = (scan_go D w.length w []).1 := by
      simp only [message_recv, hfind]
    rw [hwin]
    exact scan_go_valid_preserved D w.length w [] i p hi hlen hseq
  · have : (message_recv D w).code = 0 := by
      simp only [message_recv, hfind]
    rw [this] at hcode
    exact absurd hcode (by decide)

/-- CLAIM C3 (counterexample).  The claim says the -5 return consumes no
transport slots at all.  But a bogus packet (here 3 bytes, shorter than a
header) is discarded by the scan even when the call returns -5: slot 0 was
non-empty before the call and is empty after it. -/
theorem recv_not_ready_discards_bogus :
    (message_recv 1 [some [1, 2, 3]]).code = -5 ∧
    ([some ([1, 2, 3] : List Nat)].getD 0 none = some [1, 2, 3]) ∧
    (message_recv 1 [some [1, 2, 3]]).window = [none] :=
  ⟨rfl, rfl, rfl⟩

/-- Witness for `recv_not_ready_keeps_valid_slots`: a single valid fragment
of an incomplete two-fragment message stays in the window across a -5
return. -/
theorem recv_not_ready_keeps_valid_slots_witness :
    (message_recv 2 [some [3, 0, 1, 0, 3, 0, 0, 0, 10, 20]]).window.getD 0 none =
      some [3, 0, 1, 0, 3, 0, 0, 0, 10, 20] :=
  recv_not_ready_keeps_valid_slots 2 [some [3, 0, 1, 0, 3, 0, 0, 0, 10, 20]] 0
    [3, 0, 1, 0, 3, 0, 0, 0, 10, 20] rfl rfl (by decide) (by decide)

/-! Buffer-write lemmas for the reassembly copy loop. -/

theorem write_at_length (buf : List Nat) (loc : Nat) (bs : List Nat) :
    (write_at buf loc bs).length = buf.length := by
  simp only [write_at, List.length_append, List.length_take, List.length_drop]
  omega

theorem write_at_getD (buf : List Nat) (loc : Nat) (bs : List Nat) (k : Nat) :
    (write_at buf loc bs).getD k 0 =
      if loc ≤ k ∧ k < loc + bs.length ∧ k < buf.length then bs.getD (k - loc) 0
      else buf.getD k 0 := by
  by_cases h3 : k < buf.length
  · by_cases h1 : loc ≤ k
    · by_cases h2 : k < loc + bs.length
      · rw [if_pos ⟨h1, h2, h3⟩]
        have hA : (buf.take loc).length = loc := by
          rw [List.length_take]; omega
        rw [write_at, List.getD_eq_getElem?_getD,
          List.getElem?_append_right (by simp only [List.length_take]; omega),
          hA, List.getElem?_append]
        have hmid : k - loc < (List.take (buf.length - loc) bs).length := by
          rw [List.length_take]; omega
        rw [if_pos hmid, List.getElem?_take, if_pos (by omega)]
        rw [List.getD_eq_getElem?_getD]
      · rw [if_neg (by omega)]
        have hA : (buf.take loc).length = loc := by
          rw [List.length_take]; omega
        rw [write_at, List.getD_eq_getElem?_getD,
          List.getElem?_append_right (by simp only [List.length_take]; omega),
          hA, List.getElem?_append_right (by simp only [List.length_take]; omega)]
        have hmid : (List.take (buf.length - loc) bs).length = bs.length := by
          rw [List.length_take]; omega
        rw [hmid, List.getElem?_drop, List.getD_eq_getElem?_getD]
        have hidx : loc + bs.length + (k - loc - bs.length) = k := by omega
        rw [hidx]
    · rw [if_neg (by omega)]
      rw [write_at, List.getD_eq_getElem?_getD, List.getElem?_append,
        if_pos (by simp only [List.length_take]; omega), List.getElem?_take, if_pos (by omega),
        List.getD_eq_getElem?_getD]
  · rw [if_neg (by omega)]
    have hlen : (write_at buf loc bs).length ≤ k := by rw [write_at_length]; omega
    rw [List.getD_eq_getElem?_getD, List.getElem?_eq_none hlen,
      List.getD_eq_getElem?_getD, List.getElem?_eq_none (by omega)]

/-! Bitmap lemmas for the reassembly bookkeeping. -/

theorem getD_true_lt (l : List Bool) (b : Nat) (h : l.getD b false = true) :
    b < l.length := by
  by_contra hb
  rw [List.getD_eq_getElem?_getD, List.getElem?_eq_none (by omega)] at h
  exact Bool.false_ne_true h

theorem getD_set_self (l : List Bool) (j : Nat) (hj : j < l.length) :
    (l.set j true).getD j false = true := by
  rw [List.getD_eq_getElem?_getD, List.getElem?_set, if_pos rfl, if_pos hj]
  rfl

theorem getD_set_mono (l : List Bool) (j b : Nat) (h : l.getD b false = true) :
    (l.set j true).getD b false = true := by
  rw [List.getD_eq_getElem?_getD, List.getElem?_set]
  by_cases hjb : j = b
  · subst hjb
    rw [if_pos rfl, if_pos (getD_true_lt l j h)]
    rfl
  · rw [if_neg hjb, ← List.getD_eq_getElem?_getD]
    exact h

/-! First-pass lemmas on a window holding fragments of one message. -/

theorem scan_step_entry (D cap : Nat) (p : List Nat) (sq0 len0 : Nat)
    (pos : List Bool) (hps : pktSeq p = sq0) (hpl : pktLen p = len0) :
    scan_step D cap p [⟨sq0, len0, pos⟩] =
      [⟨sq0, len0,
        if 0 < (len0 + (D - 1)) / D then pos.set (pktLoc p / D) true else pos⟩] := by
  simp only [scan_step, hps, hpl, table_find, eq_self_iff_true, if_true]
  by_cases hneed : 0 < (len0 + (D - 1)) / D
  · rw [if_pos hneed, if_pos hneed]
    rfl
  · rw [if_neg hneed, if_neg hneed]

theorem scan_step_empty (D cap : Nat) (p : List Nat) (hcap : 0 < cap) :
    scan_step D cap p [] =
      [⟨pktSeq p, pktLen p,
        if 0 < (pktLen p + (D - 1)) / D then
          (List.replicate ((pktLen p + (D - 1)) / D) false).set (pktLoc p / D) true
        else List.replicate ((pktLen p + (D - 1)) / D) false⟩] := by
  simp only [scan_step, table_find]
  rw [if_pos (by simpa using hcap)]
  split
  · rename_i tbl1 i heq
    obtain ⟨ha, hb⟩ := Prod.mk.injEq .. ▸ Option.some.inj heq
    subst ha
    subst hb
    simp only [List.nil_append, List.length_nil]
    by_cases hneed : 0 < (pktLen p + (D - 1)) / D
    · rw [if_pos hneed, if_pos hneed]
      rfl
    · rw [if_neg hneed, if_neg hneed]
  · rename_i heq
    exact Option.noConfusion heq

theorem scan_go_one_entry (D cap sq0 len0 : Nat) (hsq0 : sq0 ≠ 0) :
    ∀ (ps : List (List Nat)) (pos : List Bool),
      pos.length = (len0 + (D - 1)) / D →
      (∀ p ∈ ps, 8 ≤ p.length ∧ pktSeq p = sq0 ∧ pktLen p = len0) →
      ∃ posF : List Bool,
        scan_go D cap (ps.map some) [⟨sq0, len0, pos⟩] =
          (ps.map some, [⟨sq0, len0, posF⟩]) ∧
        posF.length = pos.length ∧
        (∀ b, pos.getD b false = true → posF.getD b false = true) ∧
        (∀ j, j < pos.length → (∃ p ∈ ps, pktLoc p / D = j) →
          posF.getD j false = true) := by
  intro ps
  induction ps with
  | nil =>
    intro pos hplen _
    refine ⟨pos, rfl, rfl, fun b h => h, fun j hj hex => ?_⟩
    obtain ⟨p, hp, _⟩ := hex
    simp at hp
  | cons p rest ih =>
    intro pos hplen hvalid
    obtain ⟨h8, hseqp, hlenp⟩ := hvalid p (List.mem_cons_self _ _)
    set pos1 := (if 0 < (len0 + (D - 1)) / D then pos.set (pktLoc p / D) true else pos)
      with hpos1
    have hstep : scan_step D cap p [⟨sq0, len0, pos⟩] = [⟨sq0, len0, pos1⟩] := by
      rw [hpos1]
      exact scan_step_entry D cap p sq0 len0 pos hseqp hlenp
    have hp1len : pos1.length = (len0 + (D - 1)) / D := by
      rw [hpos1]
      split
      · rw [List.length_set, hplen]
      · exact hplen
    obtain ⟨posF, hgo, hlenF, hmono, hmark⟩ :=
      ih pos1 hp1len (fun q hq => hvalid q (List.mem_cons_of_mem _ hq))
    refine ⟨posF, ?_, by rw [hlenF, hp1len, hplen], ?_, ?_⟩
    · simp only [List.map_cons, scan_go, if_neg (by omega : ¬p.length < 8),
        hseqp, if_neg hsq0, hstep, hgo]
    · intro b hb
      refine hmono b ?_
      rw [hpos1]
      split
      · exact getD_set_mono pos _ b hb
      · exact hb
    · intro j hj hex
      rcases hex with ⟨q, hqmem, hqbit⟩
      rcases List.mem_cons.mp hqmem with rfl | hqrest
      · have hneed : 0 < (len0 + (D - 1)) / D := by rw [← hplen]; omega
        refine hmono j ?_
        rw [hpos1, if_pos hneed, ← hqbit]
        exact getD_set_self pos _ (by rw [hqbit]; exact hj)
      · exact hmark j (by rw [hp1len, ← hplen]; exact hj) ⟨q, hqrest, hqbit⟩

theorem scan_go_start (D cap sq0 len0 : Nat) (hsq0 : sq0 ≠ 0) (hcap : 0 < cap)
    (p : List Nat) (rest : List (List Nat))
    (hvalid : ∀ q ∈ p :: rest, 8 ≤ q.length ∧ pktSeq q = sq0 ∧ pktLen q = len0) :
    ∃ posF : List Bool,
      scan_go D cap ((p :: rest).map some) [] =
        ((p :: rest).map some, [⟨sq0, len0, posF⟩]) ∧
      posF.length = (len0 + (D - 1)) / D ∧
      (∀ j, j < (len0 + (D - 1)) / D →
        (∃ q ∈ p :: rest, pktLoc q / D = j) → posF.getD j false = true) := by
  obtain ⟨h8, hsp, hlp⟩ := hvalid p (List.mem_cons_self _ _)
  set pos1 := (if 0 < (len0 + (D - 1)) / D then
      (List.replicate ((len0 + (D - 1)) / D) false).set (pktLoc p / D) true
    else List.replicate ((len0 + (D - 1)) / D) false) with hpos1
  have hstep : scan_step D cap p [] = [⟨sq0, len0, pos1⟩] := by
    rw [hpos1, ← hsp, ← hlp]
    exact scan_step_empty D cap p hcap
  have hp1len : pos1.length = (len0 + (D - 1)) / D := by
    rw [hpos1]
    split
    · rw [List.length_set, List.length_replicate]
    · exact List.length_replicate _ _
  obtain ⟨posF, hgo, hlenF, hmono, hmark⟩ :=
    scan_go_one_entry D cap sq0 len0 hsq0 rest pos1 hp1len
      (fun q hq => hvalid q (List.mem_cons_of_mem _ hq))
  refine ⟨posF, ?_, by rw [hlenF, hp1len], ?_⟩
  · simp only [List.map_cons, scan_go, if_neg (by omega : ¬p.length < 8),
      hsp, if_neg hsq0, hstep, hgo]
  · intro j hj hex
    rcases hex with ⟨q, hqmem, hqbit⟩
    rcases List.mem_cons.mp hqmem with rfl | hqrest
    · have hneed : 0 < (len0 + (D - 1)) / D := by omega
      refine hmono j ?_
      rw [hpos1, if_pos hneed, ← hqbit]
      exact getD_set_self _ _ (by rw [hqbit, List.length_replicate]; exact hj)
    · exact hmark j (by rw [hp1len]; exact hj) ⟨q, hqrest, hqbit⟩

/-! Second-pass (reassembly copy) lemmas. -/

theorem rescan_go_len (s mlen : Nat) :
    ∀ (w : Window) (ty0 : Option Nat) (buf : List Nat),
      ((rescan_go s mlen w ty0 buf).2.2).length = buf.length := by
  intro w
  induction w with
  | nil => intro ty0 buf; rfl
  | cons sl rest ih =>
    intro ty0 buf
    match sl with
    | none => simpa only [rescan_go] using ih ty0 buf
    | some p =>
      by_cases h8 : p.length < 8
      · simpa only [rescan_go, if_pos h8] using ih ty0 buf
      · by_cases hs : pktSeq p ≠ s
        · simpa only [rescan_go, if_neg h8, if_pos hs] using ih ty0 buf
        · simp only [rescan_go, if_neg h8, if_neg hs]
          by_cases hm : 0 < mlen
          · rw [if_pos hm, ih, write_at_length]
          · rw [if_neg hm, ih]

theorem rescan_go_mlen0 (s : Nat) :
    ∀ (w : Window) (ty0 : Option Nat) (buf : List Nat),
      (rescan_go s 0 w ty0 buf).2.2 = buf := by
  intro w
  induction w with
  | nil => intro ty0 buf; rfl
  | cons sl rest ih =>
    intro ty0 buf
    match sl with
    | none => simpa only [rescan_go] using ih ty0 buf
    | some p =>
      by_cases h8 : p.length < 8
      · simpa only [rescan_go, if_pos h8] using ih ty0 buf
      · by_cases hs : pktSeq p ≠ s
        · simpa only [rescan_go, if_neg h8, if_pos hs] using ih ty0 buf
        · simp only [rescan_go, if_neg h8, if_neg hs, if_neg (Nat.lt_irrefl 0)]
          exact ih _ _

theorem rescan_go_ty (s mlen tyv : Nat) :
    ∀ (ps : List (List Nat)) (ty0 : Option Nat) (buf : List Nat), ps ≠ [] →
      (∀ p ∈ ps, 8 ≤ p.length ∧ pktSeq p = s ∧ pktType p = tyv) →
      (rescan_go s mlen (ps.map some) ty0 buf).2.1 = some tyv := by
  intro ps
  induction ps with
  | nil => intro ty0 buf h _; exact absurd rfl h
  | cons p rest ih =>
    intro ty0 buf _ hvalid
    obtain ⟨h8, hsq, hty⟩ := hvalid p (List.mem_cons_self _ _)
    simp only [List.map_cons, rescan_go, if_neg (by omega : ¬p.length < 8),
      if_neg (not_not_intro hsq)]
    by_cases hrest : rest = []
    · subst hrest
      simp [rescan_go, hty]
    · exact ih (some (pktType p)) _ hrest
        (fun q hq => hvalid q (List.mem_cons_of_mem _ hq))

theorem rescan_go_buf (s mlen : Nat) (target : List Nat) (hmlen : 0 < mlen) :
    ∀ (ps : List (List Nat)) (ty0 : Option Nat) (buf : List Nat),
      buf.length = mlen →
      (∀ p ∈ ps, 8 ≤ p.length ∧ pktSeq p = s ∧
        (∀ k2, pktLoc p ≤ k2 → k2 < pktLoc p + (p.drop 8).length → k2 < mlen →
          (p.drop 8).getD (k2 - pktLoc p) 0 = target.getD k2 0)) →
      ∀ k, k < mlen →
        ((∃ p ∈ ps, pktLoc p ≤ k ∧ k < pktLoc p + (p.drop 8).length) ∨
          buf.getD k 0 = target.getD k 0) →
        ((rescan_go s mlen (ps.map some) ty0 buf).2.2).getD k 0 = target.getD k 0 := by
  intro ps
  induction ps with
  | nil =>
    intro ty0 buf _ _ k _ hcov
    rcases hcov with ⟨p, hp, _⟩ | hagree
    · simp at hp
    · exact hagree
  | cons p rest ih =>
    intro ty0 buf hblen hvalid k hk hcov
    obtain ⟨h8, hsq, hagreep⟩ := hvalid p (List.mem_cons_self _ _)
    simp only [List.map_cons, rescan_go, if_neg (by omega : ¬p.length < 8),
      if_neg (not_not_intro hsq), if_pos hmlen]
    have hb2len : (write_at buf (pktLoc p) (p.drop 8)).length = mlen := by
      rw [write_at_length, hblen]
    by_cases hcovp : pktLoc p ≤ k ∧ k < pktLoc p + (p.drop 8).length
    · have hagree2 : (write_at buf (pktLoc p) (p.drop 8)).getD k 0 = target.getD k 0 := by
        rw [write_at_getD, if_pos ⟨hcovp.1, hcovp.2, by omega⟩]
        exact hagreep k hcovp.1 hcovp.2 hk
      exact ih (some (pktType p)) _ hb2len
        (fun q hq => hvalid q (List.mem_cons_of_mem _ hq)) k hk (Or.inr hagree2)
    · have hbuf2k : (write_at buf (pktLoc p) (p.drop 8)).getD k 0 = buf.getD k 0 := by
        rw [write_at_getD, if_neg (fun hc => hcovp ⟨hc.1, hc.2.1⟩)]
      rcases hcov with ⟨q, hqmem, hqcov⟩ | hagree
      · rcases List.mem_cons.mp hqmem with rfl | hqrest
        · exact absurd hqcov hcovp
        · exact ih (some (pktType p)) _ hb2len
            (fun q hq => hvalid q (List.mem_cons_of_mem _ hq)) k hk
            (Or.inl ⟨q, hqrest, hqcov⟩)
      · refine ih (some (pktType p)) _ hb2len
          (fun q hq => hvalid q (List.mem_cons_of_mem _ hq)) k hk (Or.inr ?_)
        rw [hbuf2k]
        exact hagree

/-! Arithmetic helpers for fragment coverage. -/

theorem getD_take_drop (data : List Nat) (a D i : Nat) (hi : i < D) :
    ((data.drop a).take D).getD i 0 = data.getD (a + i) 0 := by
  rw [List.getD_eq_getElem?_getD, List.getElem?_take, if_pos hi, List.getElem?_drop,
    List.getD_eq_getElem?_getD]

theorem numFragments_mul_ge (D len : Nat) (hD : 0 < D) :
    len ≤ numFragments D len * D := by
  rcases Nat.eq_zero_or_pos len with rfl | hl
  · exact Nat.zero_le _
  · rw [numFragments, if_neg (by omega)]
    have h1 := Nat.div_add_mod (len + (D - 1)) D
    have h2 : (len + (D - 1)) % D < D := Nat.mod_lt _ hD
    have h3 : ((len + (D - 1)) / D) * D = D * ((len + (D - 1)) / D) :=
      Nat.mul_comm _ _
    omega

theorem cover_frag (D len k : Nat) (hD : 0 < D) (hk : k < len) :
    k / D < numFragments D len ∧ (k / D) * D ≤ k ∧
      k < (k / D) * D + min D (len - (k / D) * D) := by
  have h1 := Nat.div_add_mod k D
  have h2 : k % D < D := Nat.mod_lt _ hD
  have h3 : (k / D) * D = D * (k / D) := Nat.mul_comm _ _
  have hge := numFragments_mul_ge D len hD
  have h4 : numFragments D len * D = D * numFragments D len := Nat.mul_comm _ _
  refine ⟨?_, by omega, by omega⟩
  rw [Nat.div_lt_iff_lt_mul hD]
  omega

theorem list_eq_of_getD (l1 l2 : List Nat) (hlen : l1.length = l2.length)
    (h : ∀ k, k < l1.length → l1.getD k 0 = l2.getD k 0) : l1 = l2 := by
  apply List.ext_getElem?
  intro n
  by_cases hn : n < l1.length
  · rw [List.getElem?_eq_getElem hn, List.getElem?_eq_getElem (by omega : n < l2.length)]
    have h2 := h n hn
    rw [List.getD_eq_getElem _ _ hn, List.getD_eq_getElem _ _ (by omega : n < l2.length)] at h2
    rw [h2]
  · rw [List.getElem?_eq_none (by omega), List.getElem?_eq_none (by omega)]

/-- CLAIM C5.  Round-trip through a loopback transport: sending any
(type, payload) with payload length at most 65535 (length 0 included) and
then receiving over a window holding the sent fragments in any order —
permutations included — succeeds and returns exactly the original type,
payload and length. -/
theorem message_roundtrip (D sq ty : Nat) (data : List Nat) (w : List (List Nat))
    (hD : 0 < D) (hty : ty < 65536) (hsq : 0 < sq) (hsq2 : sq < 65536)
    (hlen : data.length ≤ 65535) (out : SendOut)
    (hsend : message_send okTransport D sq ty data = some out)
    (hperm : w.Perm out.sent) :
    (message_recv D (w.map some)).code = 0 ∧
    (message_recv D (w.map some)).mtype = some ty ∧
    (message_recv D (w.map some)).data = some data ∧
    (message_recv D (w.map some)).len = some data.length := by
  rw [message_send_ok D sq ty data hD hlen] at hsend
  cases Option.some.inj hsend
  have hperm2 : w.Perm (fragList D ty sq data) := hperm
  have hn1 : 0 < numFragments D data.length :=
    lt_numFragments D data.length 0 hD (Or.inl (Nat.zero_mul D))
  have hfragLen : (fragList D ty sq data).length = numFragments D data.length := by
    rw [fragList, List.length_map, List.length_range]
  have hwlen : w.length = numFragments D data.length := by
    rw [hperm2.length_eq, hfragLen]
  have hwmem : ∀ p ∈ w, ∃ j, j < numFragments D data.length ∧
      p = fragAt D ty sq data j := by
    intro p hp
    have h2 := hperm2.mem_iff.mp hp
    rw [fragList, List.mem_map] at h2
    obtain ⟨a, ha, rfl⟩ := h2
    exact ⟨a, List.mem_range.mp ha, rfl⟩
  have hwback : ∀ j, j < numFragments D data.length → fragAt D ty sq data j ∈ w :=
    fun j hj => hperm2.mem_iff.mpr (mem_fragList D ty sq data j hj)
  have hlocb : ∀ j, j < numFragments D data.length → j * D < 65536 := by
    intro j hj
    rcases Nat.eq_zero_or_pos data.length with h0 | h0
    · have : j = 0 := by
        rw [numFragments, if_pos h0] at hj
        omega
      subst this
      omega
    · have := mul_lt_of_lt_numFragments D data.length j hD h0 hj
      omega
  rcases w with _ | ⟨p0, rest⟩
  · rw [List.length_nil] at hwlen
    omega
  · have hval : ∀ q ∈ p0 :: rest, 8 ≤ q.length ∧ pktSeq q = sq ∧
        pktLen q = data.length := by
      intro q hq
      obtain ⟨j, hj, rfl⟩ := hwmem q hq
      exact ⟨fragAt_length_ge D ty sq data j, pktSeq_fragAt D ty sq data j hsq2,
        pktLen_fragAt D ty sq data j (by omega)⟩
    have hcap : 0 < ((p0 :: rest).map some).length := by simp
    obtain ⟨posF, hscan, hposlen, hposmark⟩ :=
      scan_go_start D (((p0 :: rest).map some).length) sq data.length
        (by omega) hcap p0 rest hval
    have hneedn : 0 < data.length →
        (data.length + (D - 1)) / D = numFragments D data.length := by
      intro h0
      rw [numFragments, if_neg (by omega)]
    have hcomplete : entry_complete D ⟨sq, data.length, posF⟩ = true := by
      rw [entry_complete, List.all_eq_true]
      intro i hi
      rw [List.mem_range] at hi
      have hi2 : i < (data.length + (D - 1)) / D := hi
      have hlen0 : 0 < data.length := by
        by_contra h0
        have he : data.length = 0 := by omega
        rw [he] at hi2
        have : (0 + (D - 1)) / D = 0 := Nat.div_eq_of_lt (by omega)
        omega
      apply hposmark i hi2
      refine ⟨fragAt D ty sq data i,
        hwback i (by rw [← hneedn hlen0]; exact hi), ?_⟩
      rw [pktLoc_fragAt D ty sq data i (hlocb i (by rw [← hneedn hlen0]; exact hi))]
      exact Nat.mul_div_cancel i hD
    have hfind : ([(⟨sq, data.length, posF⟩ : SeenEntry)].find?
        (fun e => entry_complete D e)) = some ⟨sq, data.length, posF⟩ :=
      List.find?_cons_of_pos _ hcomplete
    have hrecv : message_recv D ((p0 :: rest).map some) =
        ⟨0,
          (rescan_go sq data.length ((p0 :: rest).map some) none
            (List.replicate data.length 0)).2.1,
          some (rescan_go sq data.length ((p0 :: rest).map some) none
            (List.replicate data.length 0)).2.2,
          some data.length,
          (rescan_go sq data.length ((p0 :: rest).map some) none
            (List.replicate data.length 0)).1⟩ := by
      simp only [message_recv, hscan, hfind]
    refine ⟨by rw [hrecv], ?_, ?_, by rw [hrecv]⟩
    · rw [hrecv]
      show (rescan_go sq data.length ((p0 :: rest).map some) none
        (List.replicate data.length 0)).2.1 = some ty
      refine rescan_go_ty sq data.length ty (p0 :: rest) none _ (by simp) ?_
      intro q hq
      obtain ⟨j, hj, rfl⟩ := hwmem q hq
      exact ⟨fragAt_length_ge D ty sq data j, pktSeq_fragAt D ty sq data j hsq2,
        pktType_fragAt D ty sq data j hty⟩
    · rw [hrecv]
      show some (rescan_go sq data.length ((p0 :: rest).map some) none
        (List.replicate data.length 0)).2.2 = some data
      rcases Nat.eq_zero_or_pos data.length with h0 | h0
      · rw [h0]
        have hdata : data = [] := List.eq_nil_of_length_eq_zero h0
        rw [List.replicate, rescan_go_mlen0, hdata]
      · congr 1
        have hblen : (List.replicate data.length (0 : Nat)).length = data.length :=
          List.length_replicate _ _
        refine list_eq_of_getD _ _ ?_ ?_
        · rw [rescan_go_len, hblen]
        · intro k hk
          rw [rescan_go_len, hblen] at hk
          refine rescan_go_buf sq data.length data h0 (p0 :: rest) none
            (List.replicate data.length 0) hblen ?_ k hk ?_
          · intro q hq
            obtain ⟨j, hj, rfl⟩ := hwmem q hq
            refine ⟨fragAt_length_ge D ty sq data j,
              pktSeq_fragAt D ty sq data j hsq2, ?_⟩
            intro k2 hk2a hk2b hk2c
            rw [pktLoc_fragAt D ty sq data j (hlocb j hj)] at hk2a hk2b ⊢
            rw [fragAt_drop8] at hk2b ⊢
            have hk2d : k2 - j * D < D := by
              have := List.length_take D (data.drop (j * D))
              omega
            rw [getD_take_drop data (j * D) D (k2 - j * D) hk2d]
            exact congrArg (fun x => data.getD x 0) (by omega)
          · obtain ⟨hc1, hc2, hc3⟩ := cover_frag D data.length k hD hk
            refine Or.inl ⟨fragAt D ty sq data (k / D), hwback (k / D) hc1, ?_, ?_⟩
            · rw [pktLoc_fragAt D ty sq data (k / D) (hlocb (k / D) hc1)]
              exact hc2
            · rw [pktLoc_fragAt D ty sq data (k / D) (hlocb (k / D) hc1),
                fragAt_drop8]
              have := List.length_take D (data.drop ((k / D) * D))
              have h5 := List.length_drop ((k / D) * D) data
              omega

/-- Witness for `message_roundtrip`: a 3-byte payload split into two
fragments (D = 2), delivered in reversed order. -/
theorem message_roundtrip_witness :
    (message_recv 2 ([[3, 0, 1, 0, 3, 0, 2, 0, 30],
        [3, 0, 1, 0, 3, 0, 0, 0, 10, 20]].map some)).code = 0 ∧
    (message_recv 2 ([[3, 0, 1, 0, 3, 0, 2, 0, 30],
        [3, 0, 1, 0, 3, 0, 0, 0, 10, 20]].map some)).mtype = some 3 ∧
    (message_recv 2 ([[3, 0, 1, 0, 3, 0, 2, 0, 30],
        [3, 0, 1, 0, 3, 0, 0, 0, 10, 20]].map some)).data = some [10, 20, 30] ∧
    (message_recv 2 ([[3, 0, 1, 0, 3, 0, 2, 0, 30],
        [3, 0, 1, 0, 3, 0, 0, 0, 10, 20]].map some)).len = some 3 :=
  message_roundtrip 2 1 3 [10, 20, 30]
    [[3, 0, 1, 0, 3, 0, 2, 0, 30], [3, 0, 1, 0, 3, 0, 0, 0, 10, 20]]
    (by decide) (by decide) (by decide) (by decide) (by decide)
    ⟨[[3, 0, 1, 0, 3, 0, 0, 0, 10, 20], [3, 0, 1, 0, 3, 0, 2, 0, 30]], 0, 2⟩
    rfl (by decide)

end Naomi
